import Mathlib

/-!
Verification of the Minesweeper knowledge-base AI (minesweeper.py).

The development shallowly embeds the classes `Sentence` and `MinesweeperAI`
of the source: Python sets of cells become `Finset Cell`, the mutable
knowledge list becomes a `List Sentence` threaded through state-passing
functions, and the two unbounded loops (the while-loop of
`mark_safe_and_mine` and the recursion of `extract_from_problem`) are
modelled with an explicit fuel parameter returning `Option`, so that
termination is a provable statement rather than an assumption.
Counts are integers, because the source can drive them negative on
contradictory input.
-/

namespace Mines

/-- A board cell: a pair of integer coordinates (row, column). -/
abbrev Cell : Type := Int × Int

/-- A fixed linear enumeration order on cells.  Python iterates over sets
of cells in an unspecified order; every such iteration in the source
either commutes cell-by-cell or is order-irrelevant, and the model fixes
the lexicographic order to stay executable. -/
def cellLE (a b : Cell) : Prop := a.1 < b.1 ∨ (a.1 = b.1 ∧ a.2 ≤ b.2)

instance : DecidableRel cellLE := fun a b => by
  unfold cellLE; exact inferInstance

instance : IsTrans Cell cellLE :=
  ⟨by intro a b c hab hbc; unfold cellLE at *; omega⟩

instance : IsAntisymm Cell cellLE := ⟨by
  intro a b hab hba
  obtain ⟨a1, a2⟩ := a
  obtain ⟨b1, b2⟩ := b
  unfold cellLE at *
  simp only [Prod.mk.injEq]
  constructor <;> omega⟩

instance : IsTotal Cell cellLE := ⟨by intro a b; unfold cellLE; omega⟩

/-- The cells of a finite set listed in the fixed enumeration order
(insertion sort, which is structurally recursive and therefore reduces
inside the kernel, unlike merge sort). -/
def cellList (t : Finset Cell) : List Cell :=
  Quot.liftOn t.val (fun l => l.insertionSort cellLE) fun l1 l2 h =>
    List.eq_of_perm_of_sorted
      ((List.perm_insertionSort cellLE l1).trans
        (h.trans (List.perm_insertionSort cellLE l2).symm))
      (List.sorted_insertionSort cellLE l1) (List.sorted_insertionSort cellLE l2)

theorem mem_cellList {t : Finset Cell} {c : Cell} : c ∈ cellList t ↔ c ∈ t := by
  rcases t with ⟨m, hn⟩
  refine Quot.inductionOn m (fun l => ?_) hn
  intro hn
  show c ∈ (l.insertionSort cellLE) ↔ _
  rw [(List.perm_insertionSort cellLE l).mem_iff]
  rfl

theorem length_cellList (t : Finset Cell) : (cellList t).length = t.card := by
  rcases t with ⟨m, hn⟩
  refine Quot.inductionOn m (fun l => ?_) hn
  intro hn
  show (l.insertionSort cellLE).length = _
  rw [(List.perm_insertionSort cellLE l).length_eq]
  rfl

theorem cellList_eq_nil {t : Finset Cell} : cellList t = [] ↔ t = ∅ := by
  constructor
  · intro h
    have hlen := length_cellList t
    rw [h] at hlen
    exact Finset.card_eq_zero.mp (by simpa using hlen.symm)
  · rintro rfl
    rfl

/-- `Sentence`: a set of board cells together with a count of how many of
them are mines.  Equality compares the cell set and the count, exactly as
`Sentence.__eq__` does. -/
structure Sentence where
  cells : Finset Cell
  count : Int
deriving DecidableEq

/-- `Sentence.known_mines`: all cells of the sentence if `len(cells) == count`,
otherwise `None`. -/
def Sentence.known_mines (s : Sentence) : Option (Finset Cell) :=
  if (s.cells.card : Int) = s.count then some s.cells else none

/-- `Sentence.known_safes`: all cells of the sentence if `count == 0`,
otherwise `None`. -/
def Sentence.known_safes (s : Sentence) : Option (Finset Cell) :=
  if s.count = 0 then some s.cells else none

/-- `Sentence.mark_mine`: if the cell is in the sentence, remove it and
decrement the count. -/
def Sentence.mark_mine (s : Sentence) (c : Cell) : Sentence :=
  if c ∈ s.cells then ⟨s.cells.erase c, s.count - 1⟩ else s

/-- `Sentence.mark_safe`: if the cell is in the sentence, remove it; the
count is unchanged. -/
def Sentence.mark_safe (s : Sentence) (c : Cell) : Sentence :=
  if c ∈ s.cells then ⟨s.cells.erase c, s.count⟩ else s

/-- Python truthiness of a `known_mines` / `known_safes` result: `None` and
the empty tuple are falsy, a non-empty tuple is truthy.  The source tests
`if mines or safes:` and `if mines:` on these values. -/
def truthy : Option (Finset Cell) → Bool
  | none => false
  | some t => decide t.Nonempty

/-- The state of `MinesweeperAI`: board dimensions, the cells already
clicked, the cells known to be mines or safe, and the knowledge list. -/
structure AI where
  height : Nat
  width : Nat
  moves_made : Finset Cell
  mines : Finset Cell
  safes : Finset Cell
  knowledge : List Sentence
deriving DecidableEq

/-- `MinesweeperAI.__init__`. -/
def initAI (h w : Nat) : AI := ⟨h, w, ∅, ∅, ∅, []⟩

/-- `MinesweeperAI.mark_mine`: add the cell to `mines` and run the
per-sentence `mark_mine` on every sentence in the knowledge list. -/
def AI.mark_mine (a : AI) (c : Cell) : AI :=
  { a with
    mines := insert c a.mines
    knowledge := a.knowledge.map fun s => s.mark_mine c }

/-- `MinesweeperAI.mark_safe`: if the cell is not yet known safe, add it to
`safes` and run the per-sentence `mark_safe` on every sentence. -/
def AI.mark_safe (a : AI) (c : Cell) : AI :=
  if c ∈ a.safes then a
  else
    { a with
      safes := insert c a.safes
      knowledge := a.knowledge.map fun s => s.mark_safe c }

/-- Membership of a cell inside the board rectangle, the test
`0 <= i < height and 0 <= j < width` of the source. -/
def inBounds (h w : Nat) (c : Cell) : Prop :=
  0 ≤ c.1 ∧ c.1 < (h : Int) ∧ 0 ≤ c.2 ∧ c.2 < (w : Int)

instance (h w : Nat) (c : Cell) : Decidable (inBounds h w c) := by
  unfold inBounds; exact inferInstance

/-- The 3-by-3 block of cells scanned by the neighbour double loops, in
row-major order, the centre cell included (the source includes it in the
ranges and filters it out by other conditions). -/
def nbhd (c : Cell) : List Cell :=
  [c.1 - 1, c.1, c.1 + 1].flatMap fun i => [(i, c.2 - 1), (i, c.2), (i, c.2 + 1)]

/-- The body of the neighbour scan of
`MinesweeperAI.add_neighbour_mines_knowledge`: out-of-bounds cells are
skipped, known mines decrement the count, cells already moved or known
safe are skipped, every other cell joins the candidate list. -/
def neighStep (a : AI) (p : List Cell × Int) (c : Cell) : List Cell × Int :=
  if inBounds a.height a.width c then
    if c ∈ a.mines then (p.1, p.2 - 1)
    else if c ∈ a.moves_made ∨ c ∈ a.safes then p
    else (p.1 ++ [c], p.2)
  else p

def AI.add_neighbour_mines_knowledge (a : AI) (cell : Cell) (count : Int) : AI :=
  let r := (nbhd cell).foldl (neighStep a) ([], count)
  { a with knowledge := a.knowledge ++ [⟨r.1.toFinset, r.2⟩] }

/-- One full pass of the while-loop body of `mark_safe_and_mine`.  The
source iterates over a copy of the knowledge list while mutating the list
and the shared sentence objects; since a removal always removes the first
list entry equal to the processed sentence and all marking passes run over
the whole current list, the not-yet-processed entries are always exactly
the suffix of the current list starting at index `i`.  The fuel is exact:
each step either advances `i` or shortens the list, so
`knowledge.length - i` steps remain.

The body of a resolution hit: remove the first knowledge entry equal
to the resolved sentence, then mark all its cells as mines or as safe. -/
def msmResolveStep (a : AI) (s : Sentence) : AI :=
  let a1 : AI := { a with knowledge := a.knowledge.erase s }
  let a2 : AI :=
    if truthy s.known_mines then (cellList s.cells).foldl AI.mark_mine a1 else a1
  if truthy s.known_safes then (cellList s.cells).foldl AI.mark_safe a2 else a2

def msmPass : Nat → AI → Nat → Bool → AI × Bool
  | 0, a, _, flag => (a, flag)
  | f + 1, a, i, flag =>
    match a.knowledge[i]? with
    | none => (a, flag)
    | some s =>
      if truthy s.known_mines ∨ truthy s.known_safes then
        msmPass f (msmResolveStep a s) i true
      else msmPass f a (i + 1) flag

/-- The while-loop of `mark_safe_and_mine`: repeat full passes while the
flag comes back true.  Fuel models the unbounded loop. -/
def msmWhileFuel : Nat → AI → Option AI
  | 0, _ => none
  | n + 1, a =>
    let r := msmPass a.knowledge.length a 0 false
    if r.2 then msmWhileFuel n r.1 else some r.1

/-- `MinesweeperAI.mark_safe_and_mine`: the resolution while-loop followed
by the purge of sentences whose cell set became empty. -/
def mark_safe_and_mineFuel (n : Nat) (a : AI) : Option AI :=
  (msmWhileFuel n a).map fun a1 =>
    { a1 with knowledge := a1.knowledge.filter fun s => decide (s.cells ≠ ∅) }

/-- The accumulator loop of `MinesweeperAI.remove_same_sentence`: keep the
first occurrence of every sentence value. -/
def dedupKeepFirst : List Sentence → List Sentence → List Sentence
  | acc, [] => acc
  | acc, s :: rest =>
    if s ∈ acc then dedupKeepFirst acc rest
    else dedupKeepFirst (acc ++ [s]) rest

/-- `MinesweeperAI.remove_same_sentence`. -/
def AI.remove_same_sentence (a : AI) : AI :=
  { a with knowledge := dedupKeepFirst [] a.knowledge }

/-- Ordered pairs of list entries at distinct positions, in the order
produced by `itertools.permutations(knowledge, 2)`. -/
def permPairs (l : List Sentence) : List (Sentence × Sentence) :=
  l.enum.flatMap fun p => l.enum.filterMap fun q =>
    if p.1 = q.1 then none else some (p.2, q.2)

/-- `MinesweeperAI.extract_from_problem`: deduplicate, collect every
ordered pair whose first cell set is a subset of the second, append the
derived difference sentences, remove the marked superset sentences (first
equal occurrence, guarded by a membership test as in the source), and if
any pair was found run `mark_safe_and_mine` and recurse.  Fuel models the
unbounded recursion.

The subset pairs collected in the first loop of
`extract_from_problem`: every ordered pair of distinct positions whose
first cell set is contained in the second. -/
def subsetPairs (k : List Sentence) : List (Sentence × Sentence) :=
  (permPairs k).filter fun p => decide (p.1.cells ⊆ p.2.cells)

/-- The derived sentence of a subset pair. -/
def residual (p : Sentence × Sentence) : Sentence :=
  ⟨p.2.cells \ p.1.cells, p.2.count - p.1.count⟩

/-- One round of `extract_from_problem` before the recursive re-entry:
deduplicate, append the derived sentence of every subset pair, then remove
each marked superset sentence (first equal occurrence, guarded by a
membership test as in the source). -/
def extractRound (a : AI) : AI :=
  let a0 := a.remove_same_sentence
  let pairs := subsetPairs a0.knowledge
  let k1 := a0.knowledge ++ pairs.map residual
  { a0 with knowledge := pairs.foldl (fun k p => if p.2 ∈ k then k.erase p.2 else k) k1 }

def extractFuel : Nat → AI → Option AI
  | 0, _ => none
  | n + 1, a =>
    let a2 := extractRound a
    if (subsetPairs a.remove_same_sentence.knowledge).isEmpty then some a2
    else
      match mark_safe_and_mineFuel (n + 1) a2 with
      | none => none
      | some a3 => extractFuel n a3

/-- `MinesweeperAI.add_knowledge`: record the move, mark the cell safe,
add the neighbour sentence, resolve, and run subset extraction. -/
def add_knowledgeFuel (n : Nat) (a : AI) (cell : Cell) (count : Int) : Option AI :=
  let a1 : AI := { a with moves_made := insert cell a.moves_made }
  let a2 := a1.mark_safe cell
  let a3 := a2.add_neighbour_mines_knowledge cell count
  match mark_safe_and_mineFuel n a3 with
  | none => none
  | some a4 => extractFuel n a4

/-- `MinesweeperAI.make_safe_move`: pop an element of
`safes - moves_made`, or `None` if that set is empty.  `set.pop` yields an
unspecified element of a freshly built set; the model returns the least
cell in the fixed enumeration order. -/
def AI.make_safe_move (a : AI) : Option Cell :=
  (cellList (a.safes \ a.moves_made)).head?

/-- The candidate list built by `MinesweeperAI.make_random_move`: all board
cells, in row-major order, that are neither known mines nor already moved. -/
def choiceList (a : AI) : List Cell :=
  (List.range a.height).flatMap fun (i : Nat) =>
    (List.range a.width).filterMap fun (j : Nat) =>
      if ((i : Int), (j : Int)) ∉ a.mines ∧ ((i : Int), (j : Int)) ∉ a.moves_made
      then some ((i : Int), (j : Int)) else none

/-- `MinesweeperAI.make_random_move`: `random.choice` over the candidate
list, modelled by an externally supplied random index `r`; `None` exactly
when the candidate list is empty. -/
def AI.make_random_move (a : AI) (r : Nat) : Option Cell :=
  (choiceList a)[r % (choiceList a).length]?

/-- One observation fed to `add_knowledge`: the revealed cell, the
reported count, and the fuel bound for that call's loops. -/
structure Obs where
  cell : Cell
  count : Int
  fuel : Nat
deriving DecidableEq

/-- Run a sequence of `add_knowledge` calls. -/
def runObs : AI → List Obs → Option AI
  | a, [] => some a
  | a, o :: rest =>
    match add_knowledgeFuel o.fuel a o.cell o.count with
    | none => none
    | some a1 => runObs a1 rest

/-- `Minesweeper.nearby_mines` for a board whose mine squares are exactly
`M`: the number of mines within one row and column of the cell, the cell
itself excluded, out-of-bounds positions excluded. -/
def nearbyMines (M : Finset Cell) (h w : Nat) (c : Cell) : Int :=
  (((nbhd c).filter fun x => decide (x ≠ c ∧ inBounds h w x ∧ x ∈ M)).length : Int)

/-- The observation list is produced by a consistent board with mine set
`M`: every observed cell is a revealed non-mine square and every reported
count truthfully counts the mines among its in-bounds neighbours. -/
def ConsistentObs (M : Finset Cell) (h w : Nat) (l : List Obs) : Prop :=
  ∀ o ∈ l, o.cell ∉ M ∧ o.count = nearbyMines M h w o.cell

instance (M : Finset Cell) (h w : Nat) (l : List Obs) :
    Decidable (ConsistentObs M h w l) := by
  unfold ConsistentObs; exact inferInstance

/-! ### Evolution: board dimensions are fixed, and the resolved sets only grow -/

/-- `Evolves a b`: state `b` is obtainable from state `a` by operations of
the AI: the board dimensions are unchanged and the three resolved sets
only gained cells. -/
def Evolves (a b : AI) : Prop :=
  b.height = a.height ∧ b.width = a.width ∧
    a.mines ⊆ b.mines ∧ a.safes ⊆ b.safes ∧ a.moves_made ⊆ b.moves_made

theorem evolves_refl (a : AI) : Evolves a a :=
  ⟨rfl, rfl, Finset.Subset.refl _, Finset.Subset.refl _, Finset.Subset.refl _⟩

theorem evolves_trans {a b c : AI} (h1 : Evolves a b) (h2 : Evolves b c) :
    Evolves a c :=
  ⟨h2.1.trans h1.1, h2.2.1.trans h1.2.1, h1.2.2.1.trans h2.2.2.1,
    h1.2.2.2.1.trans h2.2.2.2.1, h1.2.2.2.2.trans h2.2.2.2.2⟩

theorem evolves_set_knowledge (a : AI) (k : List Sentence) :
    Evolves a { a with knowledge := k } :=
  ⟨rfl, rfl, Finset.Subset.refl _, Finset.Subset.refl _, Finset.Subset.refl _⟩

theorem evolves_mark_mine (a : AI) (c : Cell) : Evolves a (a.mark_mine c) :=
  ⟨rfl, rfl, Finset.subset_insert _ _, Finset.Subset.refl _, Finset.Subset.refl _⟩

theorem evolves_mark_safe (a : AI) (c : Cell) : Evolves a (a.mark_safe c) := by
  unfold AI.mark_safe
  split
  · exact evolves_refl a
  · exact ⟨rfl, rfl, Finset.Subset.refl _, Finset.subset_insert _ _, Finset.Subset.refl _⟩

theorem evolves_foldl {f : AI → Cell → AI} (hf : ∀ a c, Evolves a (f a c)) :
    ∀ (cs : List Cell) (a : AI), Evolves a (cs.foldl f a) := by
  intro cs
  induction cs with
  | nil => intro a; exact evolves_refl a
  | cons c rest ih =>
    intro a
    exact evolves_trans (hf a c) (ih (f a c))

theorem evolves_add_neighbour (a : AI) (cell : Cell) (count : Int) :
    Evolves a (a.add_neighbour_mines_knowledge cell count) := by
  unfold AI.add_neighbour_mines_knowledge
  exact evolves_set_knowledge a _

theorem evolves_condFold (a : AI) (b : Bool) (cs : List Cell)
    (f : AI → Cell → AI) (hf : ∀ x c, Evolves x (f x c)) :
    Evolves a (if b then cs.foldl f a else a) := by
  cases b
  · simpa using evolves_refl a
  · simpa using evolves_foldl hf cs a

theorem evolves_msmResolveStep (a : AI) (s : Sentence) : Evolves a (msmResolveStep a s) := by
  unfold msmResolveStep
  refine evolves_trans (evolves_set_knowledge a (a.knowledge.erase s)) ?_
  refine evolves_trans
    (evolves_condFold _ (truthy s.known_mines) (cellList s.cells) _ evolves_mark_mine) ?_
  exact evolves_condFold _ (truthy s.known_safes) (cellList s.cells) _ evolves_mark_safe

theorem evolves_msmPass :
    ∀ (f : Nat) (a : AI) (i : Nat) (flag : Bool), Evolves a (msmPass f a i flag).1 := by
  intro f
  induction f with
  | zero => intro a i flag; exact evolves_refl a
  | succ f ih =>
    intro a i flag
    unfold msmPass
    cases hg : a.knowledge[i]? with
    | none => exact evolves_refl a
    | some s =>
      simp only
      split
      · exact evolves_trans (evolves_msmResolveStep a s) (ih _ i true)
      · exact ih a (i + 1) flag

theorem evolves_msmWhile {n : Nat} :
    ∀ {a b : AI}, msmWhileFuel n a = some b → Evolves a b := by
  induction n with
  | zero => intro a b h; simp [msmWhileFuel] at h
  | succ n ih =>
    intro a b h
    unfold msmWhileFuel at h
    simp only at h
    split at h
    · exact evolves_trans (evolves_msmPass _ a 0 false) (ih h)
    · cases h; exact evolves_msmPass _ a 0 false

theorem evolves_msm {n : Nat} {a b : AI} (h : mark_safe_and_mineFuel n a = some b) :
    Evolves a b := by
  unfold mark_safe_and_mineFuel at h
  cases hw : msmWhileFuel n a with
  | none => rw [hw] at h; simp at h
  | some a1 =>
    rw [hw] at h
    simp only [Option.map_some'] at h
    cases h
    exact evolves_trans (evolves_msmWhile hw) (evolves_set_knowledge a1 _)

theorem evolves_remove_same (a : AI) : Evolves a a.remove_same_sentence :=
  evolves_set_knowledge a _

theorem evolves_extractRound (a : AI) : Evolves a (extractRound a) := by
  unfold extractRound
  exact evolves_trans (evolves_remove_same a) (evolves_set_knowledge _ _)

theorem evolves_extract :
    ∀ (n : Nat) {a b : AI}, extractFuel n a = some b → Evolves a b := by
  intro n
  induction n with
  | zero => intro a b h; simp [extractFuel] at h
  | succ n ih =>
    intro a b h
    unfold extractFuel at h
    simp only at h
    split at h
    · cases h
      exact evolves_extractRound a
    · split at h
      · exact absurd h (by simp)
      · rename_i a3 hmsm
        exact evolves_trans (evolves_trans (evolves_extractRound a) (evolves_msm hmsm)) (ih h)

theorem evolves_add_knowledge {n : Nat} {a b : AI} {cell : Cell} {count : Int}
    (h : add_knowledgeFuel n a cell count = some b) : Evolves a b := by
  unfold add_knowledgeFuel at h
  simp only at h
  split at h
  · exact absurd h (by simp)
  · rename_i a4 hmsm
    refine evolves_trans ?_ (evolves_extract n h)
    refine evolves_trans ?_ (evolves_msm hmsm)
    refine evolves_trans ?_ (evolves_add_neighbour _ cell count)
    refine evolves_trans (b := { a with moves_made := insert cell a.moves_made }) ?_ ?_
    · exact ⟨rfl, rfl, Finset.Subset.refl _, Finset.Subset.refl _, Finset.subset_insert _ _⟩
    · exact evolves_mark_safe _ cell

theorem evolves_runObs :
    ∀ (l : List Obs) {a b : AI}, runObs a l = some b → Evolves a b := by
  intro l
  induction l with
  | nil => intro a b h; cases h; exact evolves_refl a
  | cons o rest ih =>
    intro a b h
    unfold runObs at h
    split at h
    · exact absurd h (by simp)
    · rename_i a1 hak
      exact evolves_trans (evolves_add_knowledge hak) (ih h)

/-! ### Membership bookkeeping for the loop bodies -/

theorem mem_of_getElem? {k : List Sentence} {i : Nat} {s : Sentence}
    (h : k[i]? = some s) : s ∈ k := by
  obtain ⟨hlt, hget⟩ := List.getElem?_eq_some_iff.mp h
  exact hget ▸ List.getElem_mem hlt

theorem mem_dedupKeepFirst :
    ∀ (l acc : List Sentence) (s : Sentence),
      s ∈ dedupKeepFirst acc l ↔ s ∈ acc ∨ s ∈ l := by
  intro l
  induction l with
  | nil => intro acc s; simp [dedupKeepFirst]
  | cons t rest ih =>
    intro acc s
    unfold dedupKeepFirst
    split
    · rename_i ht
      rw [ih]
      simp only [List.mem_cons]
      constructor
      · rintro (h | h)
        · exact Or.inl h
        · exact Or.inr (Or.inr h)
      · rintro (h | rfl | h)
        · exact Or.inl h
        · exact Or.inl ht
        · exact Or.inr h
    · rw [ih]
      simp only [List.mem_append, List.mem_cons, List.mem_singleton]
      tauto

theorem nodup_dedupKeepFirst :
    ∀ (l acc : List Sentence), acc.Nodup → (dedupKeepFirst acc l).Nodup := by
  intro l
  induction l with
  | nil => intro acc h; exact h
  | cons t rest ih =>
    intro acc h
    unfold dedupKeepFirst
    split
    · exact ih acc h
    · rename_i ht
      refine ih _ ?_
      simp [List.nodup_append, h, ht]

theorem mem_permPairs {l : List Sentence} {p : Sentence × Sentence}
    (h : p ∈ permPairs l) : p.1 ∈ l ∧ p.2 ∈ l := by
  unfold permPairs at h
  simp only [List.mem_flatMap, List.mem_filterMap] at h
  obtain ⟨q, hq, r, hr, hif⟩ := h
  have hq2 : q.2 ∈ l := by
    rw [← List.enum_map_snd l]
    exact List.mem_map_of_mem Prod.snd hq
  have hr2 : r.2 ∈ l := by
    rw [← List.enum_map_snd l]
    exact List.mem_map_of_mem Prod.snd hr
  split at hif
  · exact absurd hif (by simp)
  · cases hif
    exact ⟨hq2, hr2⟩

theorem mem_subsetPairs {k : List Sentence} {p : Sentence × Sentence}
    (h : p ∈ subsetPairs k) : p.1 ∈ k ∧ p.2 ∈ k ∧ p.1.cells ⊆ p.2.cells := by
  unfold subsetPairs at h
  rw [List.mem_filter] at h
  have hsub : p.1.cells ⊆ p.2.cells := of_decide_eq_true h.2
  exact ⟨(mem_permPairs h.1).1, (mem_permPairs h.1).2, hsub⟩

theorem foldlErase_sublist :
    ∀ (ps : List (Sentence × Sentence)) (k : List Sentence),
      (ps.foldl (fun k p => if p.2 ∈ k then k.erase p.2 else k) k).Sublist k := by
  intro ps
  induction ps with
  | nil => intro k; exact List.Sublist.refl k
  | cons p rest ih =>
    intro k
    simp only [List.foldl_cons]
    split
    · exact (ih _).trans (List.erase_sublist _ _)
    · exact ih k

/-- Every sentence of the state after one `extract_from_problem` round is
either an original sentence or the derived sentence of a subset pair of
the deduplicated list. -/
theorem mem_extractRound {a : AI} {s : Sentence}
    (h : s ∈ (extractRound a).knowledge) :
    s ∈ a.knowledge ∨
      ∃ p ∈ subsetPairs (dedupKeepFirst [] a.knowledge), s = residual p := by
  unfold extractRound AI.remove_same_sentence at h
  simp only at h
  have hmem := (foldlErase_sublist _ _).mem h
  rw [List.mem_append] at hmem
  rcases hmem with h1 | h2
  · left
    have := (mem_dedupKeepFirst _ [] s).mp h1
    simpa using this
  · right
    rw [List.mem_map] at h2
    obtain ⟨p, hp, rfl⟩ := h2
    exact ⟨p, hp, rfl⟩

/-! ### Generic invariant preservation through the fueled loops -/

theorem msmPass_preserves (P : AI → Prop)
    (hstep : ∀ a s, s ∈ a.knowledge →
      (truthy s.known_mines = true ∨ truthy s.known_safes = true) →
      P a → P (msmResolveStep a s)) :
    ∀ (f : Nat) (a : AI) (i : Nat) (flag : Bool), P a → P (msmPass f a i flag).1 := by
  intro f
  induction f with
  | zero => intro a i flag hp; exact hp
  | succ f ih =>
    intro a i flag hp
    unfold msmPass
    cases hg : a.knowledge[i]? with
    | none => exact hp
    | some s =>
      simp only
      split
      · rename_i hcond
        exact ih _ i true (hstep a s (mem_of_getElem? hg) hcond hp)
      · exact ih a (i + 1) flag hp

theorem msmWhile_preserves (P : AI → Prop)
    (hstep : ∀ a s, s ∈ a.knowledge →
      (truthy s.known_mines = true ∨ truthy s.known_safes = true) →
      P a → P (msmResolveStep a s)) :
    ∀ (n : Nat) {a b : AI}, msmWhileFuel n a = some b → P a → P b := by
  intro n
  induction n with
  | zero => intro a b h; simp [msmWhileFuel] at h
  | succ n ih =>
    intro a b h hp
    unfold msmWhileFuel at h
    simp only at h
    split at h
    · exact ih h (msmPass_preserves P hstep _ a 0 false hp)
    · cases h; exact msmPass_preserves P hstep _ a 0 false hp

theorem msm_preserves (P : AI → Prop)
    (hstep : ∀ a s, s ∈ a.knowledge →
      (truthy s.known_mines = true ∨ truthy s.known_safes = true) →
      P a → P (msmResolveStep a s))
    (hsub : ∀ (a : AI) (k : List Sentence), k.Sublist a.knowledge →
      P a → P { a with knowledge := k }) :
    ∀ (n : Nat) {a b : AI}, mark_safe_and_mineFuel n a = some b → P a → P b := by
  intro n a b h hp
  unfold mark_safe_and_mineFuel at h
  cases hw : msmWhileFuel n a with
  | none => rw [hw] at h; simp at h
  | some a1 =>
    rw [hw] at h
    simp only [Option.map_some'] at h
    cases h
    exact hsub a1 _ (List.filter_sublist _) (msmWhile_preserves P hstep n hw hp)

theorem extract_preserves (P : AI → Prop)
    (hstep : ∀ a s, s ∈ a.knowledge →
      (truthy s.known_mines = true ∨ truthy s.known_safes = true) →
      P a → P (msmResolveStep a s))
    (hsub : ∀ (a : AI) (k : List Sentence), k.Sublist a.knowledge →
      P a → P { a with knowledge := k })
    (hround : ∀ a, P a → P (extractRound a)) :
    ∀ (n : Nat) {a b : AI}, extractFuel n a = some b → P a → P b := by
  intro n
  induction n with
  | zero => intro a b h; simp [extractFuel] at h
  | succ n ih =>
    intro a b h hp
    unfold extractFuel at h
    simp only at h
    split at h
    · cases h; exact hround a hp
    · split at h
      · exact absurd h (by simp)
      · rename_i a3 hmsm
        exact ih h (msm_preserves P hstep hsub _ hmsm (hround a hp))

/-! ### Closed form of the neighbour scan -/

/-- The candidate test of the neighbour scan: in bounds, not a known mine,
not already moved or known safe. -/
def keepCell (a : AI) (x : Cell) : Bool :=
  decide (inBounds a.height a.width x ∧ x ∉ a.mines ∧ ¬(x ∈ a.moves_made ∨ x ∈ a.safes))

/-- The decrement test of the neighbour scan: in bounds and a known mine. -/
def mineCell (a : AI) (x : Cell) : Bool :=
  decide (inBounds a.height a.width x ∧ x ∈ a.mines)

theorem neigh_foldl_eq (a : AI) :
    ∀ (l : List Cell) (acc : List Cell) (cnt : Int),
      l.foldl (neighStep a) (acc, cnt)
        = (acc ++ l.filter (keepCell a),
            cnt - ((l.filter (mineCell a)).length : Int)) := by
  intro l
  induction l with
  | nil => intro acc cnt; simp
  | cons c rest ih =>
    intro acc cnt
    simp only [List.foldl_cons]
    by_cases hin : inBounds a.height a.width c
    · by_cases hm : c ∈ a.mines
      · have hstep : neighStep a (acc, cnt) c = (acc, cnt - 1) := by
          unfold neighStep; rw [if_pos hin, if_pos hm]
        rw [hstep, ih]
        have hk : keepCell a c = false := by simp [keepCell, hm]
        have hmc : mineCell a c = true := by simp [mineCell, hin, hm]
        rw [List.filter_cons_of_neg (by simp [hk]), List.filter_cons_of_pos (by simp [hmc])]
        refine Prod.ext_iff.mpr ⟨rfl, ?_⟩
        simp only [List.length_cons]
        push_cast
        ring
      · by_cases hms : c ∈ a.moves_made ∨ c ∈ a.safes
        · have hstep : neighStep a (acc, cnt) c = (acc, cnt) := by
            unfold neighStep; rw [if_pos hin, if_neg hm, if_pos hms]
          rw [hstep, ih]
          have hk : keepCell a c = false := by simp [keepCell, hms]
          have hmc : mineCell a c = false := by simp [mineCell, hm]
          rw [List.filter_cons_of_neg (by simp [hk]), List.filter_cons_of_neg (by simp [hmc])]
        · have hstep : neighStep a (acc, cnt) c = (acc ++ [c], cnt) := by
            unfold neighStep; rw [if_pos hin, if_neg hm, if_neg hms]
          rw [hstep, ih]
          have hk : keepCell a c = true := by simp [keepCell, hin, hm, hms]
          have hmc : mineCell a c = false := by simp [mineCell, hm]
          rw [List.filter_cons_of_pos (by simp [hk]), List.filter_cons_of_neg (by simp [hmc])]
          simp
    · have hstep : neighStep a (acc, cnt) c = (acc, cnt) := by
        unfold neighStep; rw [if_neg hin]
      rw [hstep, ih]
      have hk : keepCell a c = false := by simp [keepCell, hin]
      have hmc : mineCell a c = false := by simp [mineCell, hin]
      rw [List.filter_cons_of_neg (by simp [hk]), List.filter_cons_of_neg (by simp [hmc])]

/-- The sentence appended by `add_neighbour_mines_knowledge`. -/
def neighSentence (a : AI) (cell : Cell) (count : Int) : Sentence :=
  ⟨((nbhd cell).filter (keepCell a)).toFinset,
    count - (((nbhd cell).filter (mineCell a)).length : Int)⟩

theorem add_neighbour_knowledge (a : AI) (cell : Cell) (count : Int) :
    a.add_neighbour_mines_knowledge cell count
      = { a with knowledge := a.knowledge ++ [neighSentence a cell count] } := by
  unfold AI.add_neighbour_mines_knowledge neighSentence
  simp only [neigh_foldl_eq a (nbhd cell) [] count, List.nil_append]

/-! ### Elementary facts about the sentence queries and marks -/

theorem Sentence.mark_mine_idem (s : Sentence) (c : Cell) :
    (s.mark_mine c).mark_mine c = s.mark_mine c := by
  unfold Sentence.mark_mine
  by_cases h : c ∈ s.cells
  · simp [h, Finset.not_mem_erase]
  · simp [h]

theorem Sentence.mark_safe_idem (s : Sentence) (c : Cell) :
    (s.mark_safe c).mark_safe c = s.mark_safe c := by
  unfold Sentence.mark_safe
  by_cases h : c ∈ s.cells
  · simp [h, Finset.not_mem_erase]
  · simp [h]

theorem Sentence.cells_mark_mine_subset (s : Sentence) (c : Cell) :
    (s.mark_mine c).cells ⊆ s.cells := by
  unfold Sentence.mark_mine
  split
  · exact Finset.erase_subset c s.cells
  · exact Finset.Subset.refl _

theorem Sentence.cells_mark_safe_subset (s : Sentence) (c : Cell) :
    (s.mark_safe c).cells ⊆ s.cells := by
  unfold Sentence.mark_safe
  split
  · exact Finset.erase_subset c s.cells
  · exact Finset.Subset.refl _

/-! ### C10: sentence cells and marked mines stay within board bounds -/

/-- Every cell of every sentence, and every cell recorded in `mines`, lies
within the board rectangle. -/
def BoundsInv (a : AI) : Prop :=
  (∀ s ∈ a.knowledge, ∀ c ∈ s.cells, inBounds a.height a.width c) ∧
    ∀ c ∈ a.mines, inBounds a.height a.width c

theorem boundsInv_mark_mine {a : AI} {c : Cell}
    (hc : inBounds a.height a.width c) (h : BoundsInv a) :
    BoundsInv (a.mark_mine c) := by
  constructor
  · intro s hs x hx
    unfold AI.mark_mine at hs
    simp only [List.mem_map] at hs
    obtain ⟨t, ht, rfl⟩ := hs
    exact h.1 t ht x (Sentence.cells_mark_mine_subset t c hx)
  · intro x hx
    unfold AI.mark_mine at hx
    simp only [Finset.mem_insert] at hx
    rcases hx with rfl | hx
    · exact hc
    · exact h.2 x hx

theorem boundsInv_mark_safe {a : AI} (c : Cell) (h : BoundsInv a) :
    BoundsInv (a.mark_safe c) := by
  unfold AI.mark_safe
  split
  · exact h
  · constructor
    · intro s hs x hx
      simp only [List.mem_map] at hs
      obtain ⟨t, ht, rfl⟩ := hs
      exact h.1 t ht x (Sentence.cells_mark_safe_subset t c hx)
    · exact h.2

theorem boundsInv_fold_mine :
    ∀ (cs : List Cell) (a : AI), BoundsInv a →
      (∀ c ∈ cs, inBounds a.height a.width c) →
      BoundsInv (cs.foldl AI.mark_mine a) := by
  intro cs
  induction cs with
  | nil => intro a h _; exact h
  | cons c rest ih =>
    intro a h hcs
    simp only [List.foldl_cons]
    refine ih _ (boundsInv_mark_mine (hcs c (List.mem_cons_self c rest)) h) ?_
    intro x hx
    exact hcs x (List.mem_cons_of_mem c hx)

theorem boundsInv_fold_safe :
    ∀ (cs : List Cell) (a : AI), BoundsInv a → BoundsInv (cs.foldl AI.mark_safe a) := by
  intro cs
  induction cs with
  | nil => intro a h; exact h
  | cons c rest ih =>
    intro a h
    simp only [List.foldl_cons]
    exact ih _ (boundsInv_mark_safe c h)

theorem boundsInv_sub (a : AI) (k : List Sentence) (hk : k.Sublist a.knowledge)
    (h : BoundsInv a) : BoundsInv { a with knowledge := k } := by
  exact ⟨fun s hs => h.1 s (hk.mem hs), h.2⟩

theorem boundsInv_msmResolveStep (a : AI) (s : Sentence) (hs : s ∈ a.knowledge)
    (h : BoundsInv a) : BoundsInv (msmResolveStep a s) := by
  have hcells : ∀ c ∈ cellList s.cells, inBounds a.height a.width c := by
    intro c hc
    exact h.1 s hs c (mem_cellList.mp hc)
  simp only [msmResolveStep]
  have h1 : BoundsInv { a with knowledge := a.knowledge.erase s } :=
    boundsInv_sub a _ (List.erase_sublist s a.knowledge) h
  by_cases hkm : truthy s.known_mines = true
  · rw [if_pos hkm]
    by_cases hks : truthy s.known_safes = true
    · rw [if_pos hks]
      exact boundsInv_fold_safe _ _ (boundsInv_fold_mine _ _ h1 hcells)
    · rw [if_neg hks]
      exact boundsInv_fold_mine _ _ h1 hcells
  · rw [if_neg hkm]
    by_cases hks : truthy s.known_safes = true
    · rw [if_pos hks]
      exact boundsInv_fold_safe _ _ h1
    · rw [if_neg hks]
      exact h1

theorem boundsInv_extractRound (a : AI) (h : BoundsInv a) :
    BoundsInv (extractRound a) := by
  have hh : (extractRound a).height = a.height := rfl
  have hw : (extractRound a).width = a.width := rfl
  have hm : (extractRound a).mines = a.mines := rfl
  constructor
  · intro s hs x hx
    rcases mem_extractRound hs with h1 | ⟨p, hp, rfl⟩
    · exact h.1 s h1 x hx
    · have hp2 : p.2 ∈ a.knowledge := by
        have := (mem_subsetPairs hp).2.1
        simpa using (mem_dedupKeepFirst _ [] p.2).mp this
      refine h.1 p.2 hp2 x ?_
      exact Finset.sdiff_subset (by simpa [residual] using hx)
  · exact h.2

theorem boundsInv_add_knowledge {n : Nat} {a b : AI} {cell : Cell} {count : Int}
    (h : add_knowledgeFuel n a cell count = some b) (hp : BoundsInv a) : BoundsInv b := by
  unfold add_knowledgeFuel at h
  simp only at h
  split at h
  · exact absurd h (by simp)
  · rename_i a4 hmsm
    have hp1 : BoundsInv { a with moves_made := insert cell a.moves_made } :=
      ⟨hp.1, hp.2⟩
    have hp2 := boundsInv_mark_safe cell hp1
    set a2 := ({ a with moves_made := insert cell a.moves_made } : AI).mark_safe cell with ha2
    have hp3 : BoundsInv (a2.add_neighbour_mines_knowledge cell count) := by
      rw [add_neighbour_knowledge]
      constructor
      · intro s hs x hx
        rw [List.mem_append] at hs
        rcases hs with hs | hs
        · exact hp2.1 s hs x hx
        · rw [List.mem_singleton] at hs
          subst hs
          have : keepCell a2 x = true := by
            have := List.mem_filter.mp (List.mem_toFinset.mp hx)
            exact this.2
          exact (of_decide_eq_true this).1
      · exact hp2.2
    have hp4 := msm_preserves BoundsInv
      (fun a s hs _ hp => boundsInv_msmResolveStep a s hs hp)
      (fun a k hk hp => boundsInv_sub a k hk hp) n hmsm hp3
    exact extract_preserves BoundsInv
      (fun a s hs _ hp => boundsInv_msmResolveStep a s hs hp)
      (fun a k hk hp => boundsInv_sub a k hk hp)
      (fun a hp => boundsInv_extractRound a hp) n h hp4

theorem boundsInv_runObs :
    ∀ (l : List Obs) {a b : AI}, runObs a l = some b → BoundsInv a → BoundsInv b := by
  intro l
  induction l with
  | nil => intro a b h hp; cases h; exact hp
  | cons o rest ih =>
    intro a b h hp
    unfold runObs at h
    split at h
    · exact absurd h (by simp)
    · rename_i a1 hak
      exact ih h (boundsInv_add_knowledge hak hp)

/-- C10: starting from a freshly constructed AI of any dimensions, after
any sequence of completed `add_knowledge` calls — the observed cells and
counts being arbitrary — every cell of every sentence of the knowledge
list is within board bounds, and so is every cell of `mines`. -/
theorem C10_cells_in_bounds (h w : Nat) (obs : List Obs) (a : AI)
    (hrun : runObs (initAI h w) obs = some a) :
    (∀ s ∈ a.knowledge, ∀ c ∈ s.cells, inBounds h w c) ∧
      ∀ c ∈ a.mines, inBounds h w c := by
  have hinit : BoundsInv (initAI h w) := by
    constructor
    · intro s hs; simp [initAI] at hs
    · intro c hc; simp [initAI] at hc
  have hinv := boundsInv_runObs obs hrun hinit
  have hev := evolves_runObs obs hrun
  have hh : a.height = h := hev.1
  have hw2 : a.width = w := hev.2.1
  unfold BoundsInv at hinv
  rw [hh, hw2] at hinv
  exact hinv

/-! ### Honesty with respect to a fixed mine set

On a consistent board there is one fixed mine set `M`, every reported
count is truthful, and every sentence the AI ever holds states the exact
number of its cells that lie in `M`. -/

/-- Sentence `s` is honest for mine set `M`: its count is exactly the
number of its cells that are mines. -/
def Honest (M : Finset Cell) (s : Sentence) : Prop :=
  s.count = ((s.cells ∩ M).card : Int)

/-- The consistency invariant of a reachable state: every sentence is
honest, every marked mine is a mine, no marked safe cell is a mine, and
every move made is marked safe. -/
def ConsInv (M : Finset Cell) (a : AI) : Prop :=
  (∀ s ∈ a.knowledge, Honest M s) ∧ a.mines ⊆ M ∧
    (∀ c ∈ a.safes, c ∉ M) ∧ a.moves_made ⊆ a.safes

theorem honest_mark_mine {M : Finset Cell} {s : Sentence} {c : Cell}
    (hc : c ∈ M) (h : Honest M s) : Honest M (s.mark_mine c) := by
  unfold Sentence.mark_mine
  split
  · rename_i hcs
    unfold Honest at *
    simp only
    rw [Finset.erase_inter]
    have hmem : c ∈ s.cells ∩ M := Finset.mem_inter.mpr ⟨hcs, hc⟩
    rw [Finset.card_erase_of_mem hmem]
    have hpos : 0 < (s.cells ∩ M).card := Finset.card_pos.mpr ⟨c, hmem⟩
    omega
  · exact h

theorem honest_mark_safe {M : Finset Cell} {s : Sentence} {c : Cell}
    (hc : c ∉ M) (h : Honest M s) : Honest M (s.mark_safe c) := by
  unfold Sentence.mark_safe
  split
  · unfold Honest at *
    simp only
    rw [Finset.erase_inter]
    rw [Finset.erase_eq_of_not_mem (by simp [hc])]
    exact h
  · exact h

/-- Truthiness of `known_mines` unfolded. -/
theorem truthy_known_mines {s : Sentence} :
    truthy s.known_mines = true ↔ ((s.cells.card : Int) = s.count ∧ s.cells.Nonempty) := by
  unfold Sentence.known_mines
  by_cases h : (s.cells.card : Int) = s.count
  · rw [if_pos h]
    simp [truthy, h]
  · rw [if_neg h]
    simp [truthy, h]

/-- Truthiness of `known_safes` unfolded. -/
theorem truthy_known_safes {s : Sentence} :
    truthy s.known_safes = true ↔ (s.count = 0 ∧ s.cells.Nonempty) := by
  unfold Sentence.known_safes
  by_cases h : s.count = 0
  · rw [if_pos h]
    simp [truthy, h]
  · rw [if_neg h]
    simp [truthy, h]

/-- A fully-counted honest sentence consists of mines only. -/
theorem honest_resolved_mines {M : Finset Cell} {s : Sentence}
    (h : Honest M s) (ht : truthy s.known_mines = true) : s.cells ⊆ M := by
  obtain ⟨hcard, _⟩ := truthy_known_mines.mp ht
  unfold Honest at h
  have hcards : (s.cells ∩ M).card = s.cells.card := by omega
  have heq : s.cells ∩ M = s.cells :=
    Finset.eq_of_subset_of_card_le Finset.inter_subset_left (by omega)
  intro x hx
  have : x ∈ s.cells ∩ M := heq.symm ▸ hx
  exact (Finset.mem_inter.mp this).2

/-- A zero-counted honest sentence consists of non-mines only. -/
theorem honest_resolved_safes {M : Finset Cell} {s : Sentence}
    (h : Honest M s) (ht : truthy s.known_safes = true) : ∀ x ∈ s.cells, x ∉ M := by
  obtain ⟨hzero, _⟩ := truthy_known_safes.mp ht
  unfold Honest at h
  have : (s.cells ∩ M).card = 0 := by omega
  have hempty : s.cells ∩ M = ∅ := Finset.card_eq_zero.mp this
  intro x hx hxM
  have : x ∈ s.cells ∩ M := Finset.mem_inter.mpr ⟨hx, hxM⟩
  simp [hempty] at this

theorem consInv_mark_mine {M : Finset Cell} {a : AI} {c : Cell}
    (hc : c ∈ M) (h : ConsInv M a) : ConsInv M (a.mark_mine c) := by
  refine ⟨?_, ?_, h.2.2.1, h.2.2.2⟩
  · intro s hs
    unfold AI.mark_mine at hs
    simp only [List.mem_map] at hs
    obtain ⟨t, ht, rfl⟩ := hs
    exact honest_mark_mine hc (h.1 t ht)
  · intro x hx
    unfold AI.mark_mine at hx
    simp only [Finset.mem_insert] at hx
    rcases hx with rfl | hx
    · exact hc
    · exact h.2.1 hx

theorem consInv_mark_safe {M : Finset Cell} {a : AI} {c : Cell}
    (hc : c ∉ M) (h : ConsInv M a) : ConsInv M (a.mark_safe c) := by
  unfold AI.mark_safe
  split
  · exact h
  · refine ⟨?_, h.2.1, ?_, ?_⟩
    · intro s hs
      simp only [List.mem_map] at hs
      obtain ⟨t, ht, rfl⟩ := hs
      exact honest_mark_safe hc (h.1 t ht)
    · intro x hx
      simp only [Finset.mem_insert] at hx
      rcases hx with rfl | hx
      · exact hc
      · exact h.2.2.1 x hx
    · exact h.2.2.2.trans (Finset.subset_insert _ _)

theorem consInv_fold_mine {M : Finset Cell} :
    ∀ (cs : List Cell) (a : AI), ConsInv M a → (∀ c ∈ cs, c ∈ M) →
      ConsInv M (cs.foldl AI.mark_mine a) := by
  intro cs
  induction cs with
  | nil => intro a h _; exact h
  | cons c rest ih =>
    intro a h hcs
    simp only [List.foldl_cons]
    exact ih _ (consInv_mark_mine (hcs c (List.mem_cons_self c rest)) h)
      fun x hx => hcs x (List.mem_cons_of_mem c hx)

theorem consInv_fold_safe {M : Finset Cell} :
    ∀ (cs : List Cell) (a : AI), ConsInv M a → (∀ c ∈ cs, c ∉ M) →
      ConsInv M (cs.foldl AI.mark_safe a) := by
  intro cs
  induction cs with
  | nil => intro a h _; exact h
  | cons c rest ih =>
    intro a h hcs
    simp only [List.foldl_cons]
    exact ih _ (consInv_mark_safe (hcs c (List.mem_cons_self c rest)) h)
      fun x hx => hcs x (List.mem_cons_of_mem c hx)

theorem consInv_sub {M : Finset Cell} (a : AI) (k : List Sentence)
    (hk : k.Sublist a.knowledge) (h : ConsInv M a) :
    ConsInv M { a with knowledge := k } :=
  ⟨fun s hs => h.1 s (hk.mem hs), h.2.1, h.2.2.1, h.2.2.2⟩

theorem consInv_msmResolveStep {M : Finset Cell} (a : AI) (s : Sentence)
    (hs : s ∈ a.knowledge)
    (htr : truthy s.known_mines = true ∨ truthy s.known_safes = true)
    (h : ConsInv M a) : ConsInv M (msmResolveStep a s) := by
  have hhon : Honest M s := h.1 s hs
  simp only [msmResolveStep]
  have h1 : ConsInv M { a with knowledge := a.knowledge.erase s } :=
    consInv_sub a _ (List.erase_sublist s a.knowledge) h
  by_cases hkm : truthy s.known_mines = true
  · rw [if_pos hkm]
    have hsubM : ∀ c ∈ cellList s.cells, c ∈ M := by
      intro c hc
      exact honest_resolved_mines hhon hkm (mem_cellList.mp hc)
    by_cases hks : truthy s.known_safes = true
    · exfalso
      obtain ⟨hcard, hne⟩ := truthy_known_mines.mp hkm
      obtain ⟨hzero, _⟩ := truthy_known_safes.mp hks
      have : s.cells.card = 0 := by omega
      exact absurd (Finset.card_eq_zero.mp this) (Finset.nonempty_iff_ne_empty.mp hne)
    · rw [if_neg hks]
      exact consInv_fold_mine _ _ h1 hsubM
  · rw [if_neg hkm]
    have hks : truthy s.known_safes = true := htr.resolve_left hkm
    rw [if_pos hks]
    exact consInv_fold_safe _ _ h1
      fun c hc => honest_resolved_safes hhon hks c
        (mem_cellList.mp hc)

theorem honest_residual {M : Finset Cell} {p : Sentence × Sentence}
    (h1 : Honest M p.1) (h2 : Honest M p.2) (hsub : p.1.cells ⊆ p.2.cells) :
    Honest M (residual p) := by
  unfold Honest residual at *
  simp only
  have hset : (p.2.cells \ p.1.cells) ∩ M = (p.2.cells ∩ M) \ (p.1.cells ∩ M) := by
    ext x
    simp only [Finset.mem_inter, Finset.mem_sdiff]
    constructor
    · rintro ⟨⟨hx2, hx1⟩, hxM⟩
      exact ⟨⟨hx2, hxM⟩, fun hh => hx1 hh.1⟩
    · rintro ⟨⟨hx2, hxM⟩, hnot⟩
      exact ⟨⟨hx2, fun hx1 => hnot ⟨hx1, hxM⟩⟩, hxM⟩
  rw [hset]
  have hsub2 : p.1.cells ∩ M ⊆ p.2.cells ∩ M :=
    fun x hx => Finset.mem_inter.mpr
      ⟨hsub (Finset.mem_inter.mp hx).1, (Finset.mem_inter.mp hx).2⟩
  rw [Finset.card_sdiff hsub2]
  have hle := Finset.card_le_card hsub2
  omega

theorem consInv_extractRound {M : Finset Cell} (a : AI) (h : ConsInv M a) :
    ConsInv M (extractRound a) := by
  refine ⟨?_, h.2.1, h.2.2.1, h.2.2.2⟩
  intro s hs
  rcases mem_extractRound hs with h1 | ⟨p, hp, rfl⟩
  · exact h.1 s h1
  · obtain ⟨hp1, hp2, hsub⟩ := mem_subsetPairs hp
    have hm1 : p.1 ∈ a.knowledge := by
      simpa using (mem_dedupKeepFirst _ [] p.1).mp hp1
    have hm2 : p.2 ∈ a.knowledge := by
      simpa using (mem_dedupKeepFirst _ [] p.2).mp hp2
    exact honest_residual (h.1 p.1 hm1) (h.1 p.2 hm2) hsub

theorem nbhd_nodup (c : Cell) : (nbhd c).Nodup := by
  obtain ⟨x, y⟩ := c
  simp [nbhd, List.nodup_cons, Prod.ext_iff]
  omega

theorem countP_disjoint_or (l : List Cell) (p q : Cell → Bool)
    (h : ∀ x ∈ l, ¬(p x = true ∧ q x = true)) :
    l.countP (fun x => p x || q x) = l.countP p + l.countP q := by
  induction l with
  | nil => simp
  | cons c rest ih =>
    have hc := h c (List.mem_cons_self c rest)
    rw [List.countP_cons, List.countP_cons, List.countP_cons,
      ih fun x hx => h x (List.mem_cons_of_mem c hx)]
    cases hp : p c <;> cases hq : q c <;> simp_all <;> omega

/-- The sentence built from a truthful neighbour count is honest: the
cells it keeps are exactly the unresolved in-bounds neighbours, and the
adjusted count is exactly the number of them that are mines. -/
theorem honest_neighSentence {M : Finset Cell} (a : AI) (cell : Cell)
    (hInv : ConsInv M a) (hcell : cell ∉ M) :
    Honest M (neighSentence a cell (nearbyMines M a.height a.width cell)) := by
  unfold Honest neighSentence nearbyMines
  simp only
  set l := nbhd cell with hl
  have hA : (((l.filter (keepCell a)).toFinset ∩ M) : Finset Cell)
      = (l.filter fun x => keepCell a x && decide (x ∈ M)).toFinset := by
    ext x
    simp only [Finset.mem_inter, List.mem_toFinset, List.mem_filter, Bool.and_eq_true,
      decide_eq_true_eq]
    tauto
  rw [hA]
  have hB : (l.filter fun x => keepCell a x && decide (x ∈ M)).toFinset.card
      = (l.filter fun x => keepCell a x && decide (x ∈ M)).length :=
    List.toFinset_card_of_nodup ((nbhd_nodup cell).filter _)
  rw [hB]
  have hpoint : ∀ x ∈ l,
      decide (x ≠ cell ∧ inBounds a.height a.width x ∧ x ∈ M)
        ↔ (mineCell a x || (keepCell a x && decide (x ∈ M))) := by
    intro x _
    simp only [decide_eq_true_eq, Bool.or_eq_true, Bool.and_eq_true, mineCell, keepCell,
      decide_eq_true_eq]
    constructor
    · rintro ⟨hne, hinb, hM⟩
      by_cases hmx : x ∈ a.mines
      · exact Or.inl ⟨hinb, hmx⟩
      · refine Or.inr ⟨⟨hinb, hmx, ?_⟩, hM⟩
        rintro (hmv | hsf)
        · exact hInv.2.2.1 x (hInv.2.2.2 hmv) hM
        · exact hInv.2.2.1 x hsf hM
    · rintro (⟨hinb, hmx⟩ | ⟨⟨hinb, hmx, hns⟩, hM⟩)
      · have hM : x ∈ M := hInv.2.1 hmx
        exact ⟨fun he => hcell (he ▸ hM), hinb, hM⟩
      · exact ⟨fun he => hcell (he ▸ hM), hinb, hM⟩
  have hC : (l.filter fun x => decide (x ≠ cell ∧ inBounds a.height a.width x ∧ x ∈ M)).length
      = (l.filter (mineCell a)).length
        + (l.filter fun x => keepCell a x && decide (x ∈ M)).length := by
    rw [← List.countP_eq_length_filter, ← List.countP_eq_length_filter,
      ← List.countP_eq_length_filter]
    rw [List.countP_congr hpoint]
    refine countP_disjoint_or l _ _ ?_
    intro x _
    rintro ⟨h1, h2⟩
    simp only [mineCell, keepCell, Bool.and_eq_true, decide_eq_true_eq] at h1 h2
    exact h2.1.2.1 h1.2
  rw [hC]
  push_cast
  ring

theorem consInv_before_extract {M : Finset Cell} (a : AI) (cell : Cell) (count : Int)
    (hcell : cell ∉ M) (hcount : count = nearbyMines M a.height a.width cell)
    (hp : ConsInv M a) :
    ConsInv M ((({ a with moves_made := insert cell a.moves_made } : AI).mark_safe
      cell).add_neighbour_mines_knowledge cell count) := by
  have hp2 : ConsInv M (({ a with moves_made := insert cell a.moves_made } : AI).mark_safe cell) := by
      unfold AI.mark_safe
      split
      · rename_i hcs
        refine ⟨hp.1, hp.2.1, hp.2.2.1, ?_⟩
        intro x hx
        rcases Finset.mem_insert.mp hx with rfl | hx
        · exact hcs
        · exact hp.2.2.2 hx
      · refine ⟨?_, hp.2.1, ?_, ?_⟩
        · intro s hs
          simp only [List.mem_map] at hs
          obtain ⟨t, ht, rfl⟩ := hs
          exact honest_mark_safe hcell (hp.1 t ht)
        · intro x hx
          rcases Finset.mem_insert.mp hx with rfl | hx
          · exact hcell
          · exact hp.2.2.1 x hx
        · intro x hx
          rcases Finset.mem_insert.mp hx with rfl | hx
          · exact Finset.mem_insert_self _ _
          · exact Finset.mem_insert_of_mem (hp.2.2.2 hx)
  set a2 : AI := ({ a with moves_made := insert cell a.moves_made } : AI).mark_safe cell with ha2
  have hh2 : a2.height = a.height := (evolves_mark_safe _ cell).1
  have hw2 : a2.width = a.width := (evolves_mark_safe _ cell).2.1
  rw [add_neighbour_knowledge]
  refine ⟨?_, hp2.2.1, hp2.2.2.1, hp2.2.2.2⟩
  intro s hs
  rw [List.mem_append] at hs
  rcases hs with hs | hs
  · exact hp2.1 s hs
  · rw [List.mem_singleton] at hs
    subst hs
    have hcc : count = nearbyMines M a2.height a2.width cell := by rw [hh2, hw2]; exact hcount
    rw [hcc]
    exact honest_neighSentence a2 cell hp2 hcell

theorem consInv_add_knowledge {M : Finset Cell} {n : Nat} {a b : AI} {cell : Cell}
    {count : Int} (hcell : cell ∉ M)
    (hcount : count = nearbyMines M a.height a.width cell)
    (h : add_knowledgeFuel n a cell count = some b) (hp : ConsInv M a) : ConsInv M b := by
  unfold add_knowledgeFuel at h
  simp only at h
  split at h
  · exact absurd h (by simp)
  · rename_i a4 hmsm
    have hp3 := consInv_before_extract a cell count hcell hcount hp
    have hp4 := msm_preserves (ConsInv M)
      (fun a s hs htr hp => consInv_msmResolveStep a s hs htr hp)
      (fun a k hk hp => consInv_sub a k hk hp) n hmsm hp3
    exact extract_preserves (ConsInv M)
      (fun a s hs htr hp => consInv_msmResolveStep a s hs htr hp)
      (fun a k hk hp => consInv_sub a k hk hp)
      (fun a hp => consInv_extractRound a hp) n h hp4

theorem consInv_runObs {M : Finset Cell} {h w : Nat} :
    ∀ (l : List Obs) (a b : AI), a.height = h → a.width = w →
      ConsistentObs M h w l → runObs a l = some b → ConsInv M a → ConsInv M b := by
  intro l
  induction l with
  | nil => intro a b _ _ _ hr hp; cases hr; exact hp
  | cons o rest ih =>
    intro a b hh hw2 hcons hr hp
    unfold runObs at hr
    split at hr
    · exact absurd hr (by simp)
    · rename_i a1 hak
      have ho := hcons o (List.mem_cons_self o rest)
      have hcount : o.count = nearbyMines M a.height a.width o.cell := by
        rw [hh, hw2]; exact ho.2
      have hp1 := consInv_add_knowledge ho.1 hcount hak hp
      have hev := evolves_add_knowledge hak
      exact ih a1 b (hev.1.trans hh) (hev.2.1.trans hw2)
        (fun x hx => hcons x (List.mem_cons_of_mem o hx)) hr hp1

theorem consInv_init (M : Finset Cell) (h w : Nat) : ConsInv M (initAI h w) := by
  refine ⟨?_, ?_, ?_, ?_⟩ <;> simp [initAI]

/-- C6: `known_mines` returns exactly the cells iff `count = |cells|`, and
`None` ("unknown") otherwise; symmetrically `known_safes` returns exactly
the cells iff `count = 0`, and `None` otherwise.  Both are pure queries of
the embedding: they take a sentence and return a value, leaving the
sentence untouched. -/
theorem C6_known_queries (s : Sentence) :
    (s.known_mines = some s.cells ↔ s.count = (s.cells.card : Int)) ∧
    (s.known_mines = none ↔ s.count ≠ (s.cells.card : Int)) ∧
    (s.known_safes = some s.cells ↔ s.count = 0) ∧
    (s.known_safes = none ↔ s.count ≠ 0) := by
  refine ⟨?_, ?_, ?_, ?_⟩ <;>
    (simp only [Sentence.known_mines, Sentence.known_safes]; split) <;>
      simp_all <;> omega

/-- C9: the `MinesweeperAI`-level marking operations are idempotent:
marking the same cell safe (or mine) twice yields the same state as
marking it once.  This holds for every state, in particular for every
reachable one. -/
theorem C9_mark_idempotent (a : AI) (c : Cell) :
    (a.mark_safe c).mark_safe c = a.mark_safe c ∧
    (a.mark_mine c).mark_mine c = a.mark_mine c := by
  constructor
  · unfold AI.mark_safe
    by_cases h : c ∈ a.safes
    · simp [h]
    · simp [h]
  · have hmap : (a.knowledge.map fun s => s.mark_mine c).map (fun s => s.mark_mine c)
        = a.knowledge.map fun s => s.mark_mine c := by
      rw [List.map_map]
      exact List.map_congr_left fun s _ => by
        simp only [Function.comp_apply, Sentence.mark_mine_idem]
    unfold AI.mark_mine
    simp [hmap, Finset.insert_idem]

/-- C3: on a knowledge list holding exactly
`A = {(0,0),(0,1),(0,2)} = 1` and `B = {(0,0),(0,1),(0,2),(1,0),(1,1)} = 2`,
the subset-deduction pass adds the derived sentence `{(1,0),(1,1)} = 1`
and removes `B`; the final list is `[A, {(1,0),(1,1)} = 1]`. -/
theorem C3_subset_deduction_concrete :
    extractFuel 5 ⟨8, 8, ∅, ∅, ∅,
        [⟨{(0, 0), (0, 1), (0, 2)}, 1⟩, ⟨{(0, 0), (0, 1), (0, 2), (1, 0), (1, 1)}, 2⟩]⟩ =
      some ⟨8, 8, ∅, ∅, ∅, [⟨{(0, 0), (0, 1), (0, 2)}, 1⟩, ⟨{(1, 0), (1, 1)}, 1⟩]⟩ ∧
    (⟨{(1, 0), (1, 1)}, 1⟩ : Sentence) ∈
      [(⟨{(0, 0), (0, 1), (0, 2)}, 1⟩ : Sentence), ⟨{(1, 0), (1, 1)}, 1⟩] ∧
    (⟨{(0, 0), (0, 1), (0, 2), (1, 0), (1, 1)}, 2⟩ : Sentence) ∉
      [(⟨{(0, 0), (0, 1), (0, 2)}, 1⟩ : Sentence), ⟨{(1, 0), (1, 1)}, 1⟩] := by
  refine ⟨by decide, by decide, by decide⟩

/-! ### C7: make_safe_move -/

/-- C7: `make_safe_move` returns a cell of `safes - moves_made` whenever
that set is non-empty and `None` otherwise; in particular it never returns
a cell already in `moves_made`.  It is a pure query of the state: it
leaves `moves_made`, `safes`, `mines` and the knowledge list unchanged by
construction. -/
theorem C7_make_safe_move (a : AI) :
    (∀ c, a.make_safe_move = some c → c ∈ a.safes ∧ c ∉ a.moves_made) ∧
    (a.make_safe_move = none ↔ a.safes \ a.moves_made = ∅) := by
  constructor
  · intro c hc
    have hmem : c ∈ cellList (a.safes \ a.moves_made) := by
      unfold AI.make_safe_move at hc
      cases h : cellList (a.safes \ a.moves_made) with
      | nil => rw [h] at hc; simp at hc
      | cons x xs => rw [h] at hc; simp at hc; simp [h, hc]
    exact Finset.mem_sdiff.mp (mem_cellList.mp hmem)
  · unfold AI.make_safe_move
    rw [List.head?_eq_none_iff]
    exact cellList_eq_nil

/-! ### C8: make_random_move -/

theorem mem_choiceList (a : AI) (c : Cell) :
    c ∈ choiceList a ↔
      inBounds a.height a.width c ∧ c ∉ a.mines ∧ c ∉ a.moves_made := by
  unfold choiceList
  simp only [List.mem_flatMap, List.mem_filterMap, List.mem_range]
  constructor
  · rintro ⟨i, hi, j, hj, hcond⟩
    split at hcond
    · rename_i h
      obtain rfl : ((i : Int), (j : Int)) = c := Option.some.inj hcond
      refine ⟨⟨?_, ?_, ?_, ?_⟩, h.1, h.2⟩ <;> simp <;> omega
    · exact absurd hcond (by simp)
  · rintro ⟨⟨h1, h2, h3, h4⟩, hm, hmm⟩
    refine ⟨c.1.toNat, ?_, c.2.toNat, ?_, ?_⟩
    · omega
    · omega
    · have hc : ((c.1.toNat : Int), (c.2.toNat : Int)) = c := by
        obtain ⟨x, y⟩ := c
        simp only [Prod.mk.injEq]
        constructor <;> omega
      rw [hc]
      rw [if_pos ⟨hm, hmm⟩]

/-- C8: `make_random_move` never returns a known mine, returns a board
cell outside `moves_made` whenever one exists (for every random index),
and returns `None` exactly when every board cell is a known mine or
already moved. -/
theorem C8_make_random_move (a : AI) (r : Nat) :
    (∀ c, a.make_random_move r = some c →
      inBounds a.height a.width c ∧ c ∉ a.mines ∧ c ∉ a.moves_made) ∧
    (a.make_random_move r = none ↔
      ∀ c, inBounds a.height a.width c → c ∈ a.mines ∨ c ∈ a.moves_made) := by
  constructor
  · intro c hc
    unfold AI.make_random_move at hc
    have : c ∈ choiceList a := by
      have := List.getElem?_eq_some_iff.mp hc
      obtain ⟨hlt, hget⟩ := this
      exact hget ▸ List.getElem_mem hlt
    exact (mem_choiceList a c).mp this
  · unfold AI.make_random_move
    constructor
    · intro h c hb
      by_contra hcon
      push_neg at hcon
      have hmem : c ∈ choiceList a := (mem_choiceList a c).mpr ⟨hb, hcon.1, hcon.2⟩
      have hpos : 0 < (choiceList a).length := List.length_pos.mpr (List.ne_nil_of_mem hmem)
      have hlt : r % (choiceList a).length < (choiceList a).length := Nat.mod_lt _ hpos
      rw [List.getElem?_eq_none_iff] at h
      omega
    · intro h
      rw [List.getElem?_eq_none_iff]
      have : choiceList a = [] := by
        by_contra hne
        obtain ⟨c, hc⟩ := List.exists_mem_of_ne_nil _ hne
        have := (mem_choiceList a c).mp hc
        rcases h c this.1 with hh | hh
        · exact this.2.1 hh
        · exact this.2.2 hh
      simp [this]

theorem runObs_append :
    ∀ (l1 l2 : List Obs) (a : AI),
      runObs a (l1 ++ l2) = (runObs a l1).bind fun m => runObs m l2 := by
  intro l1
  induction l1 with
  | nil => intro l2 a; simp [runObs]
  | cons o rest ih =>
    intro l2 a
    simp only [List.cons_append]
    cases hak : add_knowledgeFuel o.fuel a o.cell o.count with
    | none => simp [runObs, hak]
    | some a1 => simp [runObs, hak, ih]

/-! ### Termination of the mark_safe_and_mine while-loop -/

theorem fold_mark_mine_length :
    ∀ (cs : List Cell) (a : AI),
      (cs.foldl AI.mark_mine a).knowledge.length = a.knowledge.length := by
  intro cs
  induction cs with
  | nil => intro a; rfl
  | cons c rest ih =>
    intro a
    simp only [List.foldl_cons]
    rw [ih]
    simp [AI.mark_mine]

theorem fold_mark_safe_length :
    ∀ (cs : List Cell) (a : AI),
      (cs.foldl AI.mark_safe a).knowledge.length = a.knowledge.length := by
  intro cs
  induction cs with
  | nil => intro a; rfl
  | cons c rest ih =>
    intro a
    simp only [List.foldl_cons]
    rw [ih]
    unfold AI.mark_safe
    split
    · rfl
    · simp

theorem msmResolveStep_length {a : AI} {s : Sentence} (hs : s ∈ a.knowledge) :
    (msmResolveStep a s).knowledge.length + 1 = a.knowledge.length := by
  simp only [msmResolveStep]
  have hb1 : ∀ (b : Bool) (x : AI) (cs : List Cell),
      (if b then cs.foldl AI.mark_mine x else x).knowledge.length = x.knowledge.length := by
    intro b x cs
    cases b
    · rfl
    · simp [fold_mark_mine_length]
  have hb2 : ∀ (b : Bool) (x : AI) (cs : List Cell),
      (if b then cs.foldl AI.mark_safe x else x).knowledge.length = x.knowledge.length := by
    intro b x cs
    cases b
    · rfl
    · simp [fold_mark_safe_length]
  rw [hb2, hb1]
  have hpos : 0 < a.knowledge.length := List.length_pos.mpr (List.ne_nil_of_mem hs)
  have := List.length_erase s a.knowledge
  simp only [hs, if_pos] at this
  simp only [this]
  omega

theorem msmPass_length :
    ∀ (f : Nat) (a : AI) (i : Nat) (flag : Bool),
      (msmPass f a i flag).1.knowledge.length ≤ a.knowledge.length ∧
      (flag = false → (msmPass f a i flag).2 = true →
        (msmPass f a i flag).1.knowledge.length < a.knowledge.length) := by
  intro f
  induction f with
  | zero =>
    intro a i flag
    refine ⟨Nat.le_refl _, ?_⟩
    intro h1 h2
    rw [show (msmPass 0 a i flag).2 = flag from rfl, h1] at h2
    cases h2
  | succ f ih =>
    intro a i flag
    unfold msmPass
    cases hg : a.knowledge[i]? with
    | none =>
      refine ⟨Nat.le_refl _, ?_⟩
      intro h1 h2
      simp only [h1] at h2
      cases h2
    | some s =>
      simp only
      split
      · have hs : s ∈ a.knowledge := mem_of_getElem? hg
        have hlen := msmResolveStep_length hs
        have hih := (ih (msmResolveStep a s) i true).1
        refine ⟨by omega, fun _ _ => by omega⟩
      · exact ih a (i + 1) flag

theorem msmWhile_termination :
    ∀ (n : Nat) (a : AI), a.knowledge.length < n → (msmWhileFuel n a).isSome = true := by
  intro n
  induction n with
  | zero => intro a h; omega
  | succ n ih =>
    intro a h
    unfold msmWhileFuel
    simp only
    split
    · rename_i hflag
      have hstrict := (msmPass_length a.knowledge.length a 0 false).2 rfl hflag
      exact ih _ (by omega)
    · simp

theorem msm_termination (n : Nat) (a : AI) (h : a.knowledge.length < n) :
    ∃ b, mark_safe_and_mineFuel n a = some b := by
  have := msmWhile_termination n a h
  cases hw : msmWhileFuel n a with
  | none => rw [hw] at this; simp at this
  | some a1 =>
    exact ⟨_, by unfold mark_safe_and_mineFuel; rw [hw]; rfl⟩

theorem msmWhile_mono :
    ∀ (n : Nat) {a b : AI}, msmWhileFuel n a = some b → msmWhileFuel (n + 1) a = some b := by
  intro n
  induction n with
  | zero => intro a b h; simp [msmWhileFuel] at h
  | succ n ih =>
    intro a b h
    unfold msmWhileFuel at h ⊢
    simp only at h ⊢
    split at h
    · rename_i hflag
      rw [if_pos hflag]
      exact ih h
    · rename_i hflag
      rw [if_neg hflag]
      exact h

theorem msm_mono {n : Nat} {a b : AI} (h : mark_safe_and_mineFuel n a = some b) :
    mark_safe_and_mineFuel (n + 1) a = some b := by
  unfold mark_safe_and_mineFuel at h ⊢
  cases hw : msmWhileFuel n a with
  | none => rw [hw] at h; simp at h
  | some a1 =>
    rw [hw] at h
    rw [msmWhile_mono n hw]
    exact h

theorem msm_mono_le {a b : AI} {n m : Nat} (hnm : n ≤ m)
    (h : mark_safe_and_mineFuel n a = some b) : mark_safe_and_mineFuel m a = some b := by
  induction m with
  | zero =>
    have : n = 0 := by omega
    subst this
    exact h
  | succ m ih =>
    rcases Nat.lt_or_ge n (m + 1) with hlt | hge
    · exact msm_mono (ih (by omega))
    · have : n = m + 1 := by omega
      subst this
      exact h

theorem extract_mono :
    ∀ (n : Nat) {a b : AI}, extractFuel n a = some b → extractFuel (n + 1) a = some b := by
  intro n
  induction n with
  | zero => intro a b h; simp [extractFuel] at h
  | succ n ih =>
    intro a b h
    unfold extractFuel at h ⊢
    simp only at h ⊢
    split at h
    · rename_i hp
      rw [if_pos hp]
      exact h
    · rename_i hp
      rw [if_neg hp]
      cases hm : mark_safe_and_mineFuel (n + 1) (extractRound a) with
      | none => rw [hm] at h; exact absurd h (by simp)
      | some a3 =>
        rw [hm] at h
        rw [msm_mono hm]
        exact ih h

theorem extract_mono_le {a b : AI} {n m : Nat} (hnm : n ≤ m)
    (h : extractFuel n a = some b) : extractFuel m a = some b := by
  induction m with
  | zero =>
    have : n = 0 := by omega
    subst this
    exact h
  | succ m ih =>
    rcases Nat.lt_or_ge n (m + 1) with hlt | hge
    · exact extract_mono m (ih (by omega))
    · have : n = m + 1 := by omega
      subst this
      exact h

/-! ### An exponential measure that shrinks across subset-deduction rounds -/

/-- The termination measure: the sum of `c ^ |cells|` over the knowledge
list, for a base `c` exceeding by two the largest possible number of
distinct sentences. -/
def sumPow (c : Nat) (k : List Sentence) : Nat :=
  (k.map fun s => c ^ s.cells.card).sum

theorem sumPow_sublist_le (c : Nat) {k1 k2 : List Sentence} (h : k1.Sublist k2) :
    sumPow c k1 ≤ sumPow c k2 :=
  List.Sublist.sum_le_sum (h.map _) fun a _ => Nat.zero_le a

theorem sumPow_map_le (c : Nat) (hc : 1 ≤ c) (k : List Sentence) (f : Sentence → Sentence)
    (hf : ∀ s, (f s).cells.card ≤ s.cells.card) : sumPow c (k.map f) ≤ sumPow c k := by
  unfold sumPow
  rw [List.map_map]
  exact List.sum_le_sum fun s _ => Nat.pow_le_pow_right hc (hf s)

theorem sumPow_mark_mine_le (c : Nat) (hc : 1 ≤ c) (a : AI) (x : Cell) :
    sumPow c (a.mark_mine x).knowledge ≤ sumPow c a.knowledge := by
  unfold AI.mark_mine
  exact sumPow_map_le c hc _ _ fun s =>
    Finset.card_le_card (Sentence.cells_mark_mine_subset s x)

theorem sumPow_mark_safe_le (c : Nat) (hc : 1 ≤ c) (a : AI) (x : Cell) :
    sumPow c (a.mark_safe x).knowledge ≤ sumPow c a.knowledge := by
  unfold AI.mark_safe
  split
  · exact Nat.le_refl _
  · exact sumPow_map_le c hc _ _ fun s =>
      Finset.card_le_card (Sentence.cells_mark_safe_subset s x)

theorem sumPow_fold_mine_le (c : Nat) (hc : 1 ≤ c) :
    ∀ (cs : List Cell) (a : AI),
      sumPow c (cs.foldl AI.mark_mine a).knowledge ≤ sumPow c a.knowledge := by
  intro cs
  induction cs with
  | nil => intro a; exact Nat.le_refl _
  | cons x rest ih =>
    intro a
    simp only [List.foldl_cons]
    exact (ih _).trans (sumPow_mark_mine_le c hc a x)

theorem sumPow_fold_safe_le (c : Nat) (hc : 1 ≤ c) :
    ∀ (cs : List Cell) (a : AI),
      sumPow c (cs.foldl AI.mark_safe a).knowledge ≤ sumPow c a.knowledge := by
  intro cs
  induction cs with
  | nil => intro a; exact Nat.le_refl _
  | cons x rest ih =>
    intro a
    simp only [List.foldl_cons]
    exact (ih _).trans (sumPow_mark_safe_le c hc a x)

theorem sumPow_msmResolveStep_le (c : Nat) (hc : 1 ≤ c) (a : AI) (s : Sentence) :
    sumPow c (msmResolveStep a s).knowledge ≤ sumPow c a.knowledge := by
  simp only [msmResolveStep]
  have h1 : sumPow c (a.knowledge.erase s) ≤ sumPow c a.knowledge :=
    sumPow_sublist_le c (List.erase_sublist s a.knowledge)
  by_cases hkm : truthy s.known_mines = true
  · rw [if_pos hkm]
    by_cases hks : truthy s.known_safes = true
    · rw [if_pos hks]
      exact ((sumPow_fold_safe_le c hc _ _).trans (sumPow_fold_mine_le c hc _ _)).trans h1
    · rw [if_neg hks]
      exact (sumPow_fold_mine_le c hc _ _).trans h1
  · rw [if_neg hkm]
    by_cases hks : truthy s.known_safes = true
    · rw [if_pos hks]
      exact (sumPow_fold_safe_le c hc _ _).trans h1
    · rw [if_neg hks]
      exact h1

theorem sumPow_msmPass_le (c : Nat) (hc : 1 ≤ c) :
    ∀ (f : Nat) (a : AI) (i : Nat) (flag : Bool),
      sumPow c (msmPass f a i flag).1.knowledge ≤ sumPow c a.knowledge := by
  intro f
  induction f with
  | zero => intro a i flag; exact Nat.le_refl _
  | succ f ih =>
    intro a i flag
    unfold msmPass
    cases hg : a.knowledge[i]? with
    | none => exact Nat.le_refl _
    | some s =>
      simp only
      split
      · exact (ih _ i true).trans (sumPow_msmResolveStep_le c hc a s)
      · exact ih a (i + 1) flag

theorem sumPow_msmWhile_le (c : Nat) (hc : 1 ≤ c) :
    ∀ (n : Nat) {a b : AI}, msmWhileFuel n a = some b →
      sumPow c b.knowledge ≤ sumPow c a.knowledge := by
  intro n
  induction n with
  | zero => intro a b h; simp [msmWhileFuel] at h
  | succ n ih =>
    intro a b h
    unfold msmWhileFuel at h
    simp only at h
    split at h
    · exact (ih h).trans (sumPow_msmPass_le c hc _ a 0 false)
    · cases h
      exact sumPow_msmPass_le c hc _ a 0 false

theorem sumPow_msm_le (c : Nat) (hc : 1 ≤ c) {n : Nat} {a b : AI}
    (h : mark_safe_and_mineFuel n a = some b) :
    sumPow c b.knowledge ≤ sumPow c a.knowledge := by
  unfold mark_safe_and_mineFuel at h
  cases hw : msmWhileFuel n a with
  | none => rw [hw] at h; simp at h
  | some a1 =>
    rw [hw] at h
    simp only [Option.map_some'] at h
    cases h
    exact (sumPow_sublist_le c (List.filter_sublist _)).trans (sumPow_msmWhile_le c hc n hw)

theorem sumPow_perm (c : Nat) {k1 k2 : List Sentence} (h : k1.Perm k2) :
    sumPow c k1 = sumPow c k2 :=
  (h.map _).sum_eq

/-- Removing, for every subset pair, the first knowledge entry equal to its
superset sentence removes at least one entry for every distinct marked
value. -/
theorem sumPow_removals (c : Nat) :
    ∀ (ps : List (Sentence × Sentence)) (k D : List Sentence),
      D.Nodup → (∀ v ∈ D, v ∈ ps.map Prod.snd) → (∀ v ∈ D, v ∈ k) →
      sumPow c (ps.foldl (fun k p => if p.2 ∈ k then k.erase p.2 else k) k)
          + (D.map fun v => c ^ v.cells.card).sum
        ≤ sumPow c k := by
  intro ps
  induction ps with
  | nil =>
    intro k D _ hD1 _
    have hD : D = [] := by
      cases D with
      | nil => rfl
      | cons v rest => exact absurd (hD1 v (List.mem_cons_self v rest)) (by simp)
    subst hD
    simp
  | cons p rest ih =>
    intro k D hD hD1 hD2
    simp only [List.foldl_cons]
    by_cases hv : p.2 ∈ k
    · rw [if_pos hv]
      have hsplit : sumPow c k = c ^ p.2.cells.card + sumPow c (k.erase p.2) := by
        simpa [sumPow] using sumPow_perm c (List.perm_cons_erase hv)
      have herasele : sumPow c (k.erase p.2) ≤ sumPow c k :=
        sumPow_sublist_le c (List.erase_sublist p.2 k)
      by_cases hd : p.2 ∈ D
      · have hDperm : D.Perm (p.2 :: D.erase p.2) := List.perm_cons_erase hd
        have hDsum : (D.map fun v => c ^ v.cells.card).sum
            = c ^ p.2.cells.card + ((D.erase p.2).map fun v => c ^ v.cells.card).sum := by
          simpa using (hDperm.map fun v => c ^ v.cells.card).sum_eq
        have hih := ih (k.erase p.2) (D.erase p.2) (hD.erase p.2) ?_ ?_
        · omega
        · intro v hvv
          obtain ⟨hne, hmem⟩ := hD.mem_erase_iff.mp hvv
          have := hD1 v hmem
          simp only [List.map_cons, List.mem_cons] at this
          exact this.resolve_left hne
        · intro v hvv
          obtain ⟨hne, hmem⟩ := hD.mem_erase_iff.mp hvv
          exact (List.mem_erase_of_ne hne).mpr (hD2 v hmem)
      · have hih := ih (k.erase p.2) D hD ?_ ?_
        · omega
        · intro v hvv
          have := hD1 v hvv
          simp only [List.map_cons, List.mem_cons] at this
          refine this.resolve_left fun he => hd (he ▸ hvv)
        · intro v hvv
          have hne : v ≠ p.2 := fun he => hd (he ▸ hvv)
          exact (List.mem_erase_of_ne hne).mpr (hD2 v hvv)
    · rw [if_neg hv]
      refine ih k D hD ?_ hD2
      intro v hvv
      have := hD1 v hvv
      simp only [List.map_cons, List.mem_cons] at this
      refine this.resolve_left fun he => hv (he ▸ hD2 v hvv)

/-- `dedupKeepFirst` appends to the accumulator a sublist of the input. -/
theorem dedupKeepFirst_sublist :
    ∀ (l acc : List Sentence),
      ∃ l', l'.Sublist l ∧ dedupKeepFirst acc l = acc ++ l' := by
  intro l
  induction l with
  | nil =>
    intro acc
    exact ⟨[], List.Sublist.refl _, by simp [dedupKeepFirst]⟩
  | cons s rest ih =>
    intro acc
    unfold dedupKeepFirst
    split
    · obtain ⟨l', h1, h2⟩ := ih acc
      exact ⟨l', h1.cons s, h2⟩
    · obtain ⟨l', h1, h2⟩ := ih (acc ++ [s])
      refine ⟨s :: l', h1.cons₂ s, ?_⟩
      rw [h2, List.append_assoc]
      rfl

theorem count_filterMap_pair_le (i : Nat) (b : Sentence) (v : Sentence) :
    ∀ (l : List (Nat × Sentence)),
      (((l.filterMap fun q => if i = q.1 then none else some (b, q.2)).map Prod.snd).count v)
        ≤ ((l.map Prod.snd).count v) := by
  intro l
  induction l with
  | nil => simp
  | cons q rest ih =>
    rw [List.filterMap_cons]
    split
    · refine le_trans ih ?_
      simp only [List.map_cons, List.count_cons]
      exact Nat.le_add_right _ _
    · rename_i p2 heq
      have hp2 : p2 = (b, q.2) := by
        by_cases hi : i = q.1
        · rw [if_pos hi] at heq
          cases heq
        · rw [if_neg hi] at heq
          exact (Option.some.inj heq).symm
      subst hp2
      simp only [List.map_cons, List.count_cons]
      exact Nat.add_le_add_right ih _

theorem count_flatMap_le {α β : Type} [DecidableEq β] (v : β) (m : Nat) :
    ∀ (l : List α) (f : α → List β), (∀ x ∈ l, ((f x).count v) ≤ m) →
      ((l.flatMap f).count v) ≤ l.length * m := by
  intro l
  induction l with
  | nil => simp
  | cons x rest ih =>
    intro f hb
    simp only [List.flatMap_cons, List.count_append, List.length_cons]
    have h1 := hb x (List.mem_cons_self x rest)
    have h2 := ih f fun y hy => hb y (List.mem_cons_of_mem x hy)
    rw [Nat.succ_mul]
    omega

theorem count_snd_permPairs_le (k0 : List Sentence) (hn : k0.Nodup) (v : Sentence) :
    (((permPairs k0).map Prod.snd).count v) ≤ k0.length := by
  unfold permPairs
  rw [List.map_flatMap]
  have hbound : ∀ p ∈ k0.enum,
      ((((k0.enum.filterMap fun q =>
          if p.1 = q.1 then none else some (p.2, q.2)).map Prod.snd)).count v) ≤ 1 := by
    intro p _
    refine le_trans (count_filterMap_pair_le p.1 p.2 v k0.enum) ?_
    rw [List.enum_map_snd]
    exact List.nodup_iff_count_le_one.mp hn v
  have := count_flatMap_le v 1 k0.enum _ hbound
  simpa [List.enum_length] using this

theorem count_snd_subsetPairs_le (k0 : List Sentence) (hn : k0.Nodup) (v : Sentence) :
    (((subsetPairs k0).map Prod.snd).count v) ≤ k0.length := by
  refine le_trans ?_ (count_snd_permPairs_le k0 hn v)
  exact List.Sublist.count_le ((List.filter_sublist _).map _) v

theorem sum_pow_bound (c len0 : Nat) (hlc : len0 + 2 ≤ c) :
    ∀ (D : List Sentence), (∀ v ∈ D, 1 ≤ v.cells.card) →
      (D.map fun v => len0 * c ^ (v.cells.card - 1)).sum + 2 * D.length
        ≤ (D.map fun v => c ^ v.cells.card).sum := by
  intro D
  induction D with
  | nil => simp
  | cons v rest ih =>
    intro hcard
    simp only [List.map_cons, List.sum_cons, List.length_cons]
    have h1 := ih fun x hx => hcard x (List.mem_cons_of_mem v hx)
    have hv := hcard v (List.mem_cons_self v rest)
    have hone : 1 ≤ c ^ (v.cells.card - 1) := Nat.one_le_pow _ _ (by omega)
    have hpow : len0 * c ^ (v.cells.card - 1) + 2 ≤ c ^ v.cells.card := by
      have hsucc : c ^ v.cells.card = c ^ (v.cells.card - 1) * c := by
        rw [← Nat.pow_succ]
        congr 1
        omega
      have hmul : (len0 + 2) * c ^ (v.cells.card - 1) ≤ c ^ (v.cells.card - 1) * c := by
        rw [Nat.mul_comm (c ^ (v.cells.card - 1)) c]
        exact Nat.mul_le_mul_right _ hlc
      have hexp : len0 * c ^ (v.cells.card - 1) + 2 * c ^ (v.cells.card - 1)
          = (len0 + 2) * c ^ (v.cells.card - 1) := by ring
      omega
    omega

theorem sum_toFinset_eq_dedup (l : List Sentence) (f : Sentence → Nat) :
    ∑ v ∈ l.toFinset, f v = (l.dedup.map f).sum := by
  induction l with
  | nil => simp
  | cons a t ih =>
    by_cases h : a ∈ t
    · rw [List.toFinset_cons, Finset.insert_eq_self.mpr (List.mem_toFinset.mpr h),
        List.dedup_cons_of_mem h]
      exact ih
    · rw [List.toFinset_cons, List.dedup_cons_of_not_mem h, List.map_cons, List.sum_cons,
        Finset.sum_insert (by simp [h]), ih]

theorem length_le_pow_of_nodup_honest {M U : Finset Cell} (k0 : List Sentence)
    (hn : k0.Nodup) (hhon : ∀ s ∈ k0, Honest M s) (hsub : ∀ s ∈ k0, s.cells ⊆ U) :
    k0.length ≤ 2 ^ U.card := by
  have hmapnodup : (k0.map fun s => s.cells).Nodup := by
    refine List.Nodup.map_on ?_ hn
    intro x hx y hy hxy
    have h1 := hhon x hx
    have h2 := hhon y hy
    unfold Honest at h1 h2
    obtain ⟨cx, nx⟩ := x
    obtain ⟨cy, ny⟩ := y
    simp only at hxy h1 h2
    subst hxy
    simp only [Sentence.mk.injEq, true_and]
    omega
  have hlen : (k0.map fun s => s.cells).length ≤ U.powerset.card := by
    have hfin : ∀ x ∈ k0.map fun s => s.cells, x ∈ U.powerset := by
      intro x hx
      rw [List.mem_map] at hx
      obtain ⟨s, hs, rfl⟩ := hx
      exact Finset.mem_powerset.mpr (hsub s hs)
    calc (k0.map fun s => s.cells).length
        = (k0.map fun s => s.cells).toFinset.card :=
          (List.toFinset_card_of_nodup hmapnodup).symm
      _ ≤ U.powerset.card :=
          Finset.card_le_card fun x hx => hfin x (List.mem_toFinset.mp hx)
  rw [List.length_map] at hlen
  simpa [Finset.card_powerset] using hlen

/-- One round of subset deduction with at least one subset pair strictly
decreases the measure: on a deduplicated honest list every marked superset
is removed once, while each of its at most `|k0| ≤ c - 2` derived
sentences is cheaper by a factor `c`. -/
theorem round_sumPow_lt (M U : Finset Cell) (c : Nat) (hc : c = 2 ^ U.card + 2) (a : AI)
    (hhon : ∀ s ∈ a.knowledge, Honest M s)
    (hsubU : ∀ s ∈ a.knowledge, s.cells ⊆ U)
    (hne : ∀ s ∈ a.knowledge, s.cells ≠ ∅)
    (hpairs : subsetPairs a.remove_same_sentence.knowledge ≠ []) :
    sumPow c (extractRound a).knowledge + 2 ≤ sumPow c a.knowledge := by
  have hk0mem : ∀ s ∈ a.remove_same_sentence.knowledge, s ∈ a.knowledge := by
    intro s hs
    simpa using (mem_dedupKeepFirst _ [] s).mp hs
  have hk0nodup : (a.remove_same_sentence.knowledge).Nodup :=
    nodup_dedupKeepFirst _ [] List.nodup_nil
  have hk0le : sumPow c a.remove_same_sentence.knowledge ≤ sumPow c a.knowledge := by
    obtain ⟨l2, hsl, heq⟩ := dedupKeepFirst_sublist a.knowledge []
    have hkk : a.remove_same_sentence.knowledge = l2 := by
      show dedupKeepFirst [] a.knowledge = l2
      rw [heq]
      rfl
    rw [hkk]
    exact sumPow_sublist_le c hsl
  set k0 := a.remove_same_sentence.knowledge with hk0def
  set pairs := subsetPairs k0 with hpairsdef
  set lsnd := pairs.map Prod.snd with hlsnd
  set D := lsnd.dedup with hDdef
  have hDmeml : ∀ v ∈ D, v ∈ lsnd := fun v hv => List.mem_dedup.mp hv
  have hDk0 : ∀ v ∈ D, v ∈ k0 := by
    intro v hv
    obtain ⟨p, hp, rfl⟩ := List.mem_map.mp (hDmeml v hv)
    exact (mem_subsetPairs hp).2.1
  have hlen0 : k0.length ≤ 2 ^ U.card :=
    length_le_pow_of_nodup_honest (M := M) k0 hk0nodup
      (fun s hs => hhon s (hk0mem s hs)) (fun s hs => hsubU s (hk0mem s hs))
  have hc2 : k0.length + 2 ≤ c := by omega
  have hresbound : sumPow c (pairs.map residual)
      ≤ (D.map fun v => k0.length * c ^ (v.cells.card - 1)).sum := by
    have step1 : sumPow c (pairs.map residual)
        = (pairs.map fun p => c ^ (residual p).cells.card).sum := by
      unfold sumPow
      rw [List.map_map]
      rfl
    have step2 : (pairs.map fun p => c ^ (residual p).cells.card).sum
        ≤ (pairs.map fun p => c ^ (p.2.cells.card - 1)).sum := by
      refine List.sum_le_sum ?_
      intro p hp
      refine Nat.pow_le_pow_right (by omega) ?_
      obtain ⟨hp1, hp2, hsub12⟩ := mem_subsetPairs hp
      have hA1 : 1 ≤ p.1.cells.card := by
        have hnem := hne p.1 (hk0mem _ hp1)
        have := Finset.card_pos.mpr (Finset.nonempty_iff_ne_empty.mpr hnem)
        omega
      have hle12 : p.1.cells.card ≤ p.2.cells.card := Finset.card_le_card hsub12
      have hcard : (residual p).cells.card = p.2.cells.card - p.1.cells.card := by
        show (p.2.cells \ p.1.cells).card = _
        rw [Finset.card_sdiff hsub12]
      rw [hcard]
      omega
    have step3 : (pairs.map fun p => c ^ (p.2.cells.card - 1)).sum
        = (lsnd.map fun v => c ^ (v.cells.card - 1)).sum := by
      rw [hlsnd, List.map_map]
      rfl
    have step4 : (lsnd.map fun v => c ^ (v.cells.card - 1)).sum
        = ∑ v ∈ lsnd.toFinset, lsnd.count v • c ^ (v.cells.card - 1) :=
      Finset.sum_list_map_count lsnd _
    have step5 : ∑ v ∈ lsnd.toFinset, lsnd.count v • c ^ (v.cells.card - 1)
        ≤ ∑ v ∈ lsnd.toFinset, k0.length * c ^ (v.cells.card - 1) := by
      refine Finset.sum_le_sum ?_
      intro v _
      rw [smul_eq_mul]
      exact Nat.mul_le_mul_right _ (count_snd_subsetPairs_le k0 hk0nodup v)
    have step6 : ∑ v ∈ lsnd.toFinset, k0.length * c ^ (v.cells.card - 1)
        = (D.map fun v => k0.length * c ^ (v.cells.card - 1)).sum :=
      sum_toFinset_eq_dedup lsnd _
    omega
  have hrem := sumPow_removals c pairs (k0 ++ pairs.map residual) D
    (List.nodup_dedup lsnd) hDmeml
    (fun v hv => List.mem_append_left _ (hDk0 v hv))
  have hbound := sum_pow_bound c k0.length hc2 D ?_
  · have hDne : D ≠ [] := by
      rw [hDdef]
      rw [Ne, List.dedup_eq_nil, hlsnd]
      simp only [List.map_eq_nil_iff]
      exact hpairs
    have hDlen : 1 ≤ D.length := List.length_pos.mpr hDne
    have hk1 : sumPow c (k0 ++ pairs.map residual)
        = sumPow c k0 + sumPow c (pairs.map residual) := by
      unfold sumPow
      rw [List.map_append, List.sum_append]
    have hshape : (extractRound a).knowledge
        = pairs.foldl (fun k p => if p.2 ∈ k then k.erase p.2 else k)
            (k0 ++ pairs.map residual) := rfl
    rw [hshape]
    omega
  · intro v hv
    have hnem := hne v (hk0mem _ (hDk0 v hv))
    have := Finset.card_pos.mpr (Finset.nonempty_iff_ne_empty.mpr hnem)
    omega

/-! ### C4: the knowledge list is normalized after every add_knowledge call -/

theorem mem_cells_mark_mine {s : Sentence} {c x : Cell}
    (hx : x ∈ (s.mark_mine c).cells) : x ∈ s.cells ∧ x ≠ c := by
  unfold Sentence.mark_mine at hx
  split at hx
  · have := Finset.mem_erase.mp hx
    exact ⟨this.2, this.1⟩
  · rename_i hc
    exact ⟨hx, fun he => hc (he ▸ hx)⟩

theorem mem_cells_mark_safe {s : Sentence} {c x : Cell}
    (hx : x ∈ (s.mark_safe c).cells) : x ∈ s.cells ∧ x ≠ c := by
  unfold Sentence.mark_safe at hx
  split at hx
  · have := Finset.mem_erase.mp hx
    exact ⟨this.2, this.1⟩
  · rename_i hc
    exact ⟨hx, fun he => hc (he ▸ hx)⟩

/-- No resolved cell survives inside any sentence: sentence cells are
disjoint from both `mines` and `safes`. -/
def CleanInv (a : AI) : Prop :=
  ∀ s ∈ a.knowledge, ∀ c ∈ s.cells, c ∉ a.mines ∧ c ∉ a.safes

theorem cleanInv_mark_mine {a : AI} (c : Cell) (h : CleanInv a) :
    CleanInv (a.mark_mine c) := by
  intro s hs x hx
  unfold AI.mark_mine at hs ⊢
  simp only [List.mem_map] at hs
  obtain ⟨t, ht, rfl⟩ := hs
  obtain ⟨hxt, hxc⟩ := mem_cells_mark_mine hx
  refine ⟨?_, (h t ht x hxt).2⟩
  simp only [Finset.mem_insert]
  rintro (rfl | hmem)
  · exact hxc rfl
  · exact (h t ht x hxt).1 hmem

theorem cleanInv_mark_safe {a : AI} (c : Cell) (h : CleanInv a) :
    CleanInv (a.mark_safe c) := by
  unfold AI.mark_safe
  split
  · exact h
  · intro s hs x hx
    simp only [List.mem_map] at hs
    obtain ⟨t, ht, rfl⟩ := hs
    obtain ⟨hxt, hxc⟩ := mem_cells_mark_safe hx
    refine ⟨(h t ht x hxt).1, ?_⟩
    simp only [Finset.mem_insert]
    rintro (rfl | hmem)
    · exact hxc rfl
    · exact (h t ht x hxt).2 hmem

theorem cleanInv_fold_mine :
    ∀ (cs : List Cell) (a : AI), CleanInv a → CleanInv (cs.foldl AI.mark_mine a) := by
  intro cs
  induction cs with
  | nil => intro a h; exact h
  | cons c rest ih =>
    intro a h
    simp only [List.foldl_cons]
    exact ih _ (cleanInv_mark_mine c h)

theorem cleanInv_fold_safe :
    ∀ (cs : List Cell) (a : AI), CleanInv a → CleanInv (cs.foldl AI.mark_safe a) := by
  intro cs
  induction cs with
  | nil => intro a h; exact h
  | cons c rest ih =>
    intro a h
    simp only [List.foldl_cons]
    exact ih _ (cleanInv_mark_safe c h)

theorem cleanInv_sub (a : AI) (k : List Sentence) (hk : k.Sublist a.knowledge)
    (h : CleanInv a) : CleanInv { a with knowledge := k } :=
  fun s hs => h s (hk.mem hs)

theorem cleanInv_msmResolveStep (a : AI) (s : Sentence) (h : CleanInv a) :
    CleanInv (msmResolveStep a s) := by
  simp only [msmResolveStep]
  have h1 : CleanInv { a with knowledge := a.knowledge.erase s } :=
    cleanInv_sub a _ (List.erase_sublist s a.knowledge) h
  by_cases hkm : truthy s.known_mines = true
  · rw [if_pos hkm]
    by_cases hks : truthy s.known_safes = true
    · rw [if_pos hks]
      exact cleanInv_fold_safe _ _ (cleanInv_fold_mine _ _ h1)
    · rw [if_neg hks]
      exact cleanInv_fold_mine _ _ h1
  · rw [if_neg hkm]
    by_cases hks : truthy s.known_safes = true
    · rw [if_pos hks]
      exact cleanInv_fold_safe _ _ h1
    · rw [if_neg hks]
      exact h1

theorem cleanInv_extractRound (a : AI) (h : CleanInv a) :
    CleanInv (extractRound a) := by
  intro s hs x hx
  rcases mem_extractRound hs with h1 | ⟨p, hp, rfl⟩
  · exact h s h1 x hx
  · have hp2 : p.2 ∈ a.knowledge := by
      simpa using (mem_dedupKeepFirst _ [] p.2).mp (mem_subsetPairs hp).2.1
    exact h p.2 hp2 x (Finset.sdiff_subset (by simpa [residual] using hx))

theorem cleanInv_add_knowledge {n : Nat} {a b : AI} {cell : Cell} {count : Int}
    (h : add_knowledgeFuel n a cell count = some b) (hp : CleanInv a) : CleanInv b := by
  unfold add_knowledgeFuel at h
  simp only at h
  split at h
  · exact absurd h (by simp)
  · rename_i a4 hmsm
    have hp1 : CleanInv { a with moves_made := insert cell a.moves_made } := hp
    have hp2 := cleanInv_mark_safe cell hp1
    set a2 : AI := ({ a with moves_made := insert cell a.moves_made } : AI).mark_safe cell
    have hp3 : CleanInv (a2.add_neighbour_mines_knowledge cell count) := by
      rw [add_neighbour_knowledge]
      intro s hs x hx
      rw [List.mem_append] at hs
      rcases hs with hs | hs
      · exact hp2 s hs x hx
      · rw [List.mem_singleton] at hs
        subst hs
        have hk : keepCell a2 x = true :=
          (List.mem_filter.mp (List.mem_toFinset.mp hx)).2
        have hkp := of_decide_eq_true hk
        refine ⟨hkp.2.1, fun hsf => hkp.2.2 (Or.inr hsf)⟩
    have hp4 := msm_preserves CleanInv
      (fun a s _ _ hp => cleanInv_msmResolveStep a s hp)
      (fun a k hk hp => cleanInv_sub a k hk hp) n hmsm hp3
    exact extract_preserves CleanInv
      (fun a s _ _ hp => cleanInv_msmResolveStep a s hp)
      (fun a k hk hp => cleanInv_sub a k hk hp)
      (fun a hp => cleanInv_extractRound a hp) n h hp4

theorem cleanInv_runObs :
    ∀ (l : List Obs) {a b : AI}, runObs a l = some b → CleanInv a → CleanInv b := by
  intro l
  induction l with
  | nil => intro a b h hp; cases h; exact hp
  | cons o rest ih =>
    intro a b h hp
    unfold runObs at h
    split at h
    · exact absurd h (by simp)
    · rename_i a1 hak
      exact ih h (cleanInv_add_knowledge hak hp)

theorem msm_no_empty {n : Nat} {a b : AI} (h : mark_safe_and_mineFuel n a = some b) :
    ∀ s ∈ b.knowledge, s.cells ≠ ∅ := by
  unfold mark_safe_and_mineFuel at h
  cases hw : msmWhileFuel n a with
  | none => rw [hw] at h; simp at h
  | some a1 =>
    rw [hw] at h
    simp only [Option.map_some'] at h
    cases h
    intro s hs
    simp only [List.mem_filter] at hs
    exact of_decide_eq_true hs.2

theorem extractRound_of_no_pairs {a : AI}
    (hp : subsetPairs a.remove_same_sentence.knowledge = []) :
    (extractRound a).knowledge = dedupKeepFirst [] a.knowledge := by
  unfold extractRound
  simp only [hp, List.map_nil, List.append_nil, List.foldl_nil]
  rfl

theorem extract_normalized :
    ∀ (n : Nat) {a b : AI}, extractFuel n a = some b →
      (∀ s ∈ a.knowledge, s.cells ≠ ∅) →
      b.knowledge.Nodup ∧ ∀ s ∈ b.knowledge, s.cells ≠ ∅ := by
  intro n
  induction n with
  | zero => intro a b h; simp [extractFuel] at h
  | succ n ih =>
    intro a b h hne
    unfold extractFuel at h
    simp only at h
    split at h
    · rename_i hpairs
      cases h
      have hp : subsetPairs a.remove_same_sentence.knowledge = [] :=
        List.isEmpty_iff.mp hpairs
      rw [extractRound_of_no_pairs hp]
      constructor
      · exact nodup_dedupKeepFirst _ [] List.nodup_nil
      · intro s hs
        exact hne s (by simpa using (mem_dedupKeepFirst _ [] s).mp hs)
    · split at h
      · exact absurd h (by simp)
      · rename_i a3 hmsm
        exact ih h (msm_no_empty hmsm)

theorem add_knowledge_normalized {n : Nat} {a b : AI} {cell : Cell} {count : Int}
    (h : add_knowledgeFuel n a cell count = some b) :
    b.knowledge.Nodup ∧ ∀ s ∈ b.knowledge, s.cells ≠ ∅ := by
  unfold add_knowledgeFuel at h
  simp only at h
  split at h
  · exact absurd h (by simp)
  · rename_i a4 hmsm
    exact extract_normalized n h (msm_no_empty hmsm)

/-- C4: after every completed `add_knowledge` call of a run on a
consistent board, the knowledge list is normalized: no cell of `mines` or
`safes` remains inside any sentence, no two sentences of the list are
equal by value, and no sentence has an empty cell set.  (The last two
hold after every completed call on any state; the first is an invariant
of every run from a fresh state.) -/
theorem C4_normalized (M : Finset Cell) (h w : Nat) (obs : List Obs) (o : Obs) (a : AI)
    (_hcons : ConsistentObs M h w (obs ++ [o]))
    (hrun : runObs (initAI h w) (obs ++ [o]) = some a) :
    (∀ s ∈ a.knowledge, ∀ c ∈ s.cells, c ∉ a.mines ∧ c ∉ a.safes) ∧
    a.knowledge.Nodup ∧ ∀ s ∈ a.knowledge, s.cells ≠ ∅ := by
  have hclean : CleanInv a := by
    refine cleanInv_runObs (obs ++ [o]) hrun ?_
    intro s hs
    simp [initAI] at hs
  refine ⟨hclean, ?_⟩
  rw [runObs_append] at hrun
  cases hmid : runObs (initAI h w) obs with
  | none => rw [hmid] at hrun; simp at hrun
  | some mid =>
    rw [hmid] at hrun
    simp only [Option.some_bind] at hrun
    unfold runObs at hrun
    split at hrun
    · exact absurd hrun (by simp)
    · rename_i a1 hak
      cases hrun
      exact add_knowledge_normalized hak

/-! ### C1: count bounds on every reachable sentence of a consistent game -/

/-- C1: for every observation sequence produced by a consistent board
(each observed cell a non-mine and each count truthfully describing the
fixed mine set `M`), every sentence in the knowledge list after any
completed `add_knowledge` call satisfies `0 ≤ count ≤ |cells|`.  Every
prefix of a consistent sequence is itself consistent, so quantifying over
all consistent sequences covers the state after every completed call. -/
theorem C1_count_bounds (M : Finset Cell) (h w : Nat) (obs : List Obs) (a : AI)
    (hcons : ConsistentObs M h w obs) (hrun : runObs (initAI h w) obs = some a) :
    ∀ s ∈ a.knowledge, 0 ≤ s.count ∧ s.count ≤ (s.cells.card : Int) := by
  have hinv := consInv_runObs obs (initAI h w) a rfl rfl hcons hrun (consInv_init M h w)
  intro s hs
  have hhon := hinv.1 s hs
  unfold Honest at hhon
  have hle : (s.cells ∩ M).card ≤ s.cells.card :=
    Finset.card_le_card Finset.inter_subset_left
  omega

theorem C1_witness :
    ConsistentObs {(0, 0)} 3 3 [⟨(1, 1), 1, 9⟩] ∧
    runObs (initAI 3 3) [⟨(1, 1), 1, 9⟩]
      = some ⟨3, 3, {(1, 1)}, ∅, {(1, 1)},
          [⟨{(0, 0), (0, 1), (0, 2), (1, 0), (1, 2), (2, 0), (2, 1), (2, 2)}, 1⟩]⟩ ∧
    0 ≤ (⟨{(0, 0), (0, 1), (0, 2), (1, 0), (1, 2), (2, 0), (2, 1), (2, 2)}, 1⟩ : Sentence).count ∧
    (⟨{(0, 0), (0, 1), (0, 2), (1, 0), (1, 2), (2, 0), (2, 1), (2, 2)}, 1⟩ : Sentence).count
      ≤ ((⟨{(0, 0), (0, 1), (0, 2), (1, 0), (1, 2), (2, 0), (2, 1), (2, 2)}, 1⟩ : Sentence).cells.card : Int) := by
  have hmain := C1_count_bounds {(0, 0)} 3 3 [⟨(1, 1), 1, 9⟩]
    ⟨3, 3, {(1, 1)}, ∅, {(1, 1)},
      [⟨{(0, 0), (0, 1), (0, 2), (1, 0), (1, 2), (2, 0), (2, 1), (2, 2)}, 1⟩]⟩
    (by decide) (by decide)
    ⟨{(0, 0), (0, 1), (0, 2), (1, 0), (1, 2), (2, 0), (2, 1), (2, 2)}, 1⟩ (by decide)
  exact ⟨by decide, by decide, hmain.1, hmain.2⟩

/-! ### C2: disjointness of mines and safes, and monotonicity -/

/-- C2 counterexample: the claim quantifies over arbitrary operation
sequences, but on inconsistent observations a cell can enter `mines` and
later `safes`.  On a 2-by-2 board, `add_knowledge((0,0), 3)` marks all
three neighbours as mines; a subsequent `add_knowledge((0,1), 0)` then
marks the known mine `(0,1)` safe, so `mines ∩ safes = {(0,1)} ≠ ∅`. -/
theorem C2_counterexample :
    (runObs (initAI 2 2) [⟨(0, 0), 3, 3⟩, ⟨(0, 1), 0, 3⟩]).map
        (fun a => decide (((0, 1) : Cell) ∈ a.mines ∧ ((0, 1) : Cell) ∈ a.safes))
      = some true ∧
    (runObs (initAI 2 2) [⟨(0, 0), 3, 3⟩, ⟨(0, 1), 0, 3⟩]).map
        (fun a => decide (a.mines ∩ a.safes = ∅))
      = some false :=
  ⟨by decide, by decide⟩

/-- C2 amended: along any run — consistent or not — the sets `mines`,
`safes` and `moves_made` only ever gain elements: at every intermediate
state of the run each of them is a subset of its final value.  Under
observation sequences produced by a consistent board, additionally
`mines ∩ safes = ∅` at every point of the run, so no cell ever changes
status between mine and safe. -/
theorem C2_disjoint_monotone (h w : Nat) (obs : List Obs) (a : AI)
    (hrun : runObs (initAI h w) obs = some a) :
    (∀ l1 l2 mid, obs = l1 ++ l2 → runObs (initAI h w) l1 = some mid →
      mid.mines ⊆ a.mines ∧ mid.safes ⊆ a.safes ∧ mid.moves_made ⊆ a.moves_made) ∧
    ∀ M : Finset Cell, ConsistentObs M h w obs →
      a.mines ∩ a.safes = ∅ ∧
      ∀ l1 l2 mid, obs = l1 ++ l2 → runObs (initAI h w) l1 = some mid →
        mid.mines ∩ mid.safes = ∅ := by
  have hdisj : ∀ (M : Finset Cell) (b : AI), ConsInv M b → b.mines ∩ b.safes = ∅ := by
    intro M b hb
    refine Finset.eq_empty_iff_forall_not_mem.mpr ?_
    intro x hx
    rw [Finset.mem_inter] at hx
    exact hb.2.2.1 x hx.2 (hb.2.1 hx.1)
  constructor
  · intro l1 l2 mid hsplit hmid
    have hrest : runObs mid l2 = some a := by
      rw [hsplit, runObs_append, hmid] at hrun
      simpa using hrun
    have hev := evolves_runObs l2 hrest
    exact ⟨hev.2.2.1, hev.2.2.2.1, hev.2.2.2.2⟩
  · intro M hcons
    have hinv := consInv_runObs obs (initAI h w) a rfl rfl hcons hrun (consInv_init M h w)
    refine ⟨hdisj M a hinv, ?_⟩
    intro l1 l2 mid hsplit hmid
    have hcons1 : ConsistentObs M h w l1 := fun o ho =>
      hcons o (hsplit ▸ List.mem_append_left l2 ho)
    exact hdisj M mid
      (consInv_runObs l1 (initAI h w) mid rfl rfl hcons1 hmid (consInv_init M h w))

theorem C2_witness :
    (Option.get (runObs (initAI 2 2) [⟨(0, 0), 3, 3⟩]) (by decide)).mines ⊆
      (Option.get (runObs (initAI 2 2) [⟨(0, 0), 3, 3⟩, ⟨(0, 1), 0, 3⟩]) (by decide)).mines ∧
    (Option.get (runObs (initAI 3 3) [⟨(1, 1), 1, 9⟩, ⟨(2, 2), 0, 9⟩]) (by decide)).mines ∩
      (Option.get (runObs (initAI 3 3) [⟨(1, 1), 1, 9⟩, ⟨(2, 2), 0, 9⟩]) (by decide)).safes
      = ∅ := by
  refine ⟨?_, ?_⟩
  · exact ((C2_disjoint_monotone 2 2 [⟨(0, 0), 3, 3⟩, ⟨(0, 1), 0, 3⟩]
      (Option.get (runObs (initAI 2 2) [⟨(0, 0), 3, 3⟩, ⟨(0, 1), 0, 3⟩]) (by decide))
      (Option.some_get (by decide)).symm).1 [⟨(0, 0), 3, 3⟩] [⟨(0, 1), 0, 3⟩]
      (Option.get (runObs (initAI 2 2) [⟨(0, 0), 3, 3⟩]) (by decide))
      rfl (Option.some_get (by decide)).symm).1
  · exact ((C2_disjoint_monotone 3 3 [⟨(1, 1), 1, 9⟩, ⟨(2, 2), 0, 9⟩]
      (Option.get (runObs (initAI 3 3) [⟨(1, 1), 1, 9⟩, ⟨(2, 2), 0, 9⟩]) (by decide))
      (Option.some_get (by decide)).symm).2 {(0, 0)} (by decide)).1

/-! ### C5: every add_knowledge call of a consistent game terminates -/

/-- All sentence cells stay inside a fixed universe `U`. -/
def CellsSub (U : Finset Cell) (a : AI) : Prop := ∀ s ∈ a.knowledge, s.cells ⊆ U

theorem cellsSub_mark_mine {U : Finset Cell} {a : AI} (c : Cell) (h : CellsSub U a) :
    CellsSub U (a.mark_mine c) := by
  intro s hs
  unfold AI.mark_mine at hs
  simp only [List.mem_map] at hs
  obtain ⟨t, ht, rfl⟩ := hs
  exact (Sentence.cells_mark_mine_subset t c).trans (h t ht)

theorem cellsSub_mark_safe {U : Finset Cell} {a : AI} (c : Cell) (h : CellsSub U a) :
    CellsSub U (a.mark_safe c) := by
  unfold AI.mark_safe
  split
  · exact h
  · intro s hs
    simp only [List.mem_map] at hs
    obtain ⟨t, ht, rfl⟩ := hs
    exact (Sentence.cells_mark_safe_subset t c).trans (h t ht)

theorem cellsSub_fold_mine {U : Finset Cell} :
    ∀ (cs : List Cell) (a : AI), CellsSub U a → CellsSub U (cs.foldl AI.mark_mine a) := by
  intro cs
  induction cs with
  | nil => intro a h; exact h
  | cons c rest ih =>
    intro a h
    simp only [List.foldl_cons]
    exact ih _ (cellsSub_mark_mine c h)

theorem cellsSub_fold_safe {U : Finset Cell} :
    ∀ (cs : List Cell) (a : AI), CellsSub U a → CellsSub U (cs.foldl AI.mark_safe a) := by
  intro cs
  induction cs with
  | nil => intro a h; exact h
  | cons c rest ih =>
    intro a h
    simp only [List.foldl_cons]
    exact ih _ (cellsSub_mark_safe c h)

theorem cellsSub_sub {U : Finset Cell} (a : AI) (k : List Sentence)
    (hk : k.Sublist a.knowledge) (h : CellsSub U a) :
    CellsSub U { a with knowledge := k } :=
  fun s hs => h s (hk.mem hs)

theorem cellsSub_msmResolveStep {U : Finset Cell} (a : AI) (s : Sentence)
    (h : CellsSub U a) : CellsSub U (msmResolveStep a s) := by
  simp only [msmResolveStep]
  have h1 : CellsSub U { a with knowledge := a.knowledge.erase s } :=
    cellsSub_sub a _ (List.erase_sublist s a.knowledge) h
  by_cases hkm : truthy s.known_mines = true
  · rw [if_pos hkm]
    by_cases hks : truthy s.known_safes = true
    · rw [if_pos hks]
      exact cellsSub_fold_safe _ _ (cellsSub_fold_mine _ _ h1)
    · rw [if_neg hks]
      exact cellsSub_fold_mine _ _ h1
  · rw [if_neg hkm]
    by_cases hks : truthy s.known_safes = true
    · rw [if_pos hks]
      exact cellsSub_fold_safe _ _ h1
    · rw [if_neg hks]
      exact h1

theorem cellsSub_extractRound {U : Finset Cell} (a : AI) (h : CellsSub U a) :
    CellsSub U (extractRound a) := by
  intro s hs
  rcases mem_extractRound hs with h1 | ⟨p, hp, rfl⟩
  · exact h s h1
  · have hp2 : p.2 ∈ a.knowledge := by
      simpa using (mem_dedupKeepFirst _ [] p.2).mp (mem_subsetPairs hp).2.1
    exact (Finset.sdiff_subset.trans (h p.2 hp2) : (residual p).cells ⊆ U)

/-- The union of all cells currently mentioned by the knowledge list. -/
def kUnion (k : List Sentence) : Finset Cell :=
  k.foldr (fun s u => s.cells ∪ u) ∅

theorem subset_kUnion : ∀ (k : List Sentence) (s : Sentence), s ∈ k → s.cells ⊆ kUnion k := by
  intro k
  induction k with
  | nil => intro s hs; simp at hs
  | cons t rest ih =>
    intro s hs
    rcases List.mem_cons.mp hs with rfl | hs
    · exact Finset.subset_union_left
    · exact (ih s hs).trans Finset.subset_union_right

/-- Subset extraction terminates on every honest, empty-free state: each
round with a subset pair strictly decreases the exponential measure. -/
theorem extract_terminates (M U : Finset Cell) (c : Nat) (hc : c = 2 ^ U.card + 2) :
    ∀ (μ : Nat) (a : AI), ConsInv M a → CellsSub U a →
      (∀ s ∈ a.knowledge, s.cells ≠ ∅) → sumPow c a.knowledge ≤ μ →
      ∃ n b, extractFuel n a = some b := by
  have hc1 : 1 ≤ c := by
    rw [hc]
    exact Nat.le_trans (by norm_num) (Nat.le_add_left 2 (2 ^ U.card))
  intro μ
  induction μ with
  | zero =>
    intro a hinv hcs hne hsum
    by_cases hp : subsetPairs a.remove_same_sentence.knowledge = []
    · refine ⟨1, extractRound a, ?_⟩
      unfold extractFuel
      simp only
      rw [if_pos (List.isEmpty_iff.mpr hp)]
    · exfalso
      have := round_sumPow_lt M U c hc a hinv.1 hcs hne hp
      omega
  | succ μ ih =>
    intro a hinv hcs hne hsum
    by_cases hp : subsetPairs a.remove_same_sentence.knowledge = []
    · refine ⟨1, extractRound a, ?_⟩
      unfold extractFuel
      simp only
      rw [if_pos (List.isEmpty_iff.mpr hp)]
    · have hlt := round_sumPow_lt M U c hc a hinv.1 hcs hne hp
      obtain ⟨a3, hmsm⟩ :=
        msm_termination ((extractRound a).knowledge.length + 1) (extractRound a) (by omega)
      have hinv2 : ConsInv M (extractRound a) := consInv_extractRound a hinv
      have hcs2 : CellsSub U (extractRound a) := cellsSub_extractRound a hcs
      have hinv3 : ConsInv M a3 := msm_preserves (ConsInv M)
        (fun a s hs htr hp => consInv_msmResolveStep a s hs htr hp)
        (fun a k hk hp => consInv_sub a k hk hp) _ hmsm hinv2
      have hcs3 : CellsSub U a3 := msm_preserves (CellsSub U)
        (fun a s _ _ hp => cellsSub_msmResolveStep a s hp)
        (fun a k hk hp => cellsSub_sub a k hk hp) _ hmsm hcs2
      have hne3 := msm_no_empty hmsm
      have hsum3 : sumPow c a3.knowledge ≤ μ := by
        have h1 := sumPow_msm_le c hc1 hmsm
        omega
      obtain ⟨n3, b, hb⟩ := ih a3 hinv3 hcs3 hne3 hsum3
      refine ⟨max ((extractRound a).knowledge.length + 1) n3 + 1, b, ?_⟩
      unfold extractFuel
      simp only
      rw [if_neg ?_]
      · rw [msm_mono_le (Nat.le_succ_of_le (Nat.le_max_left _ _)) hmsm]
        exact extract_mono_le (Nat.le_max_right _ _) hb
      · rw [List.isEmpty_iff]
        exact hp

/-- C5: for every state reached by a sequence of observations from a
consistent board, and every further consistent observation, the
`add_knowledge` call terminates: some finite fuel makes both the
direct-resolution while-loop and the subset-deduction recursion reach
their fixpoints and return. -/
theorem C5_add_knowledge_terminates (M : Finset Cell) (h w : Nat) (obs : List Obs)
    (a : AI) (cell : Cell) (count : Int)
    (hcons : ConsistentObs M h w obs) (hrun : runObs (initAI h w) obs = some a)
    (hcell : cell ∉ M) (hcount : count = nearbyMines M h w cell) :
    ∃ n b, add_knowledgeFuel n a cell count = some b := by
  have hinv := consInv_runObs obs (initAI h w) a rfl rfl hcons hrun (consInv_init M h w)
  have hev := evolves_runObs obs hrun
  have hcount2 : count = nearbyMines M a.height a.width cell := by
    rw [hev.1, hev.2.1]
    exact hcount
  set a3 := (({ a with moves_made := insert cell a.moves_made } : AI).mark_safe
      cell).add_neighbour_mines_knowledge cell count with ha3
  have hinv3 : ConsInv M a3 := consInv_before_extract a cell count hcell hcount2 hinv
  obtain ⟨a4, hmsm⟩ := msm_termination (a3.knowledge.length + 1) a3 (by omega)
  have hinv4 : ConsInv M a4 := msm_preserves (ConsInv M)
    (fun a s hs htr hp => consInv_msmResolveStep a s hs htr hp)
    (fun a k hk hp => consInv_sub a k hk hp) _ hmsm hinv3
  have hne4 := msm_no_empty hmsm
  have hcs4 : CellsSub (kUnion a4.knowledge) a4 := fun s hs => subset_kUnion _ s hs
  obtain ⟨n2, b, hb⟩ := extract_terminates M (kUnion a4.knowledge)
    (2 ^ (kUnion a4.knowledge).card + 2) rfl
    (sumPow (2 ^ (kUnion a4.knowledge).card + 2) a4.knowledge) a4 hinv4 hcs4 hne4
    (Nat.le_refl _)
  refine ⟨max (a3.knowledge.length + 1) n2, b, ?_⟩
  unfold add_knowledgeFuel
  simp only
  rw [← ha3]
  rw [msm_mono_le (Nat.le_max_left _ _) hmsm]
  exact extract_mono_le (Nat.le_max_right _ _) hb

theorem C5_witness :
    ∃ n b, add_knowledgeFuel n (initAI 3 3) (1, 1) 1 = some b :=
  C5_add_knowledge_terminates {(0, 0)} 3 3 [] (initAI 3 3) (1, 1) 1
    (by decide) rfl (by decide) (by decide)

theorem C4_witness :
    ConsistentObs {(0, 0)} 3 3 ([] ++ [⟨(1, 1), 1, 9⟩]) ∧
    (⟨3, 3, {(1, 1)}, ∅, {(1, 1)},
        [⟨{(0, 0), (0, 1), (0, 2), (1, 0), (1, 2), (2, 0), (2, 1), (2, 2)}, 1⟩]⟩
      : AI).knowledge.Nodup ∧
    ((0, 0) : Cell) ∉ (⟨3, 3, {(1, 1)}, ∅, {(1, 1)},
        [⟨{(0, 0), (0, 1), (0, 2), (1, 0), (1, 2), (2, 0), (2, 1), (2, 2)}, 1⟩]⟩
      : AI).mines ∧
    ((0, 0) : Cell) ∉ (⟨3, 3, {(1, 1)}, ∅, {(1, 1)},
        [⟨{(0, 0), (0, 1), (0, 2), (1, 0), (1, 2), (2, 0), (2, 1), (2, 2)}, 1⟩]⟩
      : AI).safes := by
  have hmain := C4_normalized {(0, 0)} 3 3 [] ⟨(1, 1), 1, 9⟩
    ⟨3, 3, {(1, 1)}, ∅, {(1, 1)},
      [⟨{(0, 0), (0, 1), (0, 2), (1, 0), (1, 2), (2, 0), (2, 1), (2, 2)}, 1⟩]⟩
    (by decide) (by decide)
  refine ⟨by decide, hmain.2.1, ?_, ?_⟩
  · exact (hmain.1 ⟨{(0, 0), (0, 1), (0, 2), (1, 0), (1, 2), (2, 0), (2, 1), (2, 2)}, 1⟩
      (by decide) (0, 0) (by decide)).1
  · exact (hmain.1 ⟨{(0, 0), (0, 1), (0, 2), (1, 0), (1, 2), (2, 0), (2, 1), (2, 2)}, 1⟩
      (by decide) (0, 0) (by decide)).2

theorem C10_witness :
    ((0, 1) : Cell) ∈
      (Option.get (runObs (initAI 2 2) [⟨(0, 0), 3, 3⟩]) (by decide)).mines ∧
    inBounds 2 2 ((0, 1) : Cell) := by
  have hmain := C10_cells_in_bounds 2 2 [⟨(0, 0), 3, 3⟩]
    (Option.get (runObs (initAI 2 2) [⟨(0, 0), 3, 3⟩]) (by decide))
    (Option.some_get (by decide)).symm
  exact ⟨by decide, hmain.2 (0, 1) (by decide)⟩

theorem C7_witness :
    (AI.make_safe_move ⟨2, 2, {(0, 0)}, ∅, {(0, 0), (0, 1)}, []⟩ = some (0, 1)) ∧
    ((0, 1) : Cell) ∈ (⟨2, 2, {(0, 0)}, ∅, {(0, 0), (0, 1)}, []⟩ : AI).safes ∧
    ((0, 1) : Cell) ∉ (⟨2, 2, {(0, 0)}, ∅, {(0, 0), (0, 1)}, []⟩ : AI).moves_made := by
  have hmain := C7_make_safe_move ⟨2, 2, {(0, 0)}, ∅, {(0, 0), (0, 1)}, []⟩
  exact ⟨by decide, hmain.1 (0, 1) (by decide)⟩

theorem C8_witness :
    (AI.make_random_move ⟨2, 2, {(0, 0)}, {(1, 1)}, ∅, []⟩ 0 = some (0, 1)) ∧
    inBounds (⟨2, 2, {(0, 0)}, {(1, 1)}, ∅, []⟩ : AI).height
      (⟨2, 2, {(0, 0)}, {(1, 1)}, ∅, []⟩ : AI).width ((0, 1) : Cell) ∧
    ((0, 1) : Cell) ∉ (⟨2, 2, {(0, 0)}, {(1, 1)}, ∅, []⟩ : AI).mines ∧
    ((0, 1) : Cell) ∉ (⟨2, 2, {(0, 0)}, {(1, 1)}, ∅, []⟩ : AI).moves_made := by
  have hmain := C8_make_random_move ⟨2, 2, {(0, 0)}, {(1, 1)}, ∅, []⟩ 0
  exact ⟨by decide, hmain.1 (0, 1) (by decide)⟩

end Mines
